import Mathlib

/-!
Verification of the ZeroRepo Repository Planning Graph (RPG) pipeline.

This file gives a shallow embedding, in Lean 4, of the parts of the
`zerorepo` Python backend that the checked claims are about:

* `backend/zerorepo/rpg/graph_ops.py` — graph construction, DAG
  validation, topological sort, neighborhood queries;
* `backend/zerorepo/plan/proposal.py` — the feature acceptance filter and
  the capability-graph builder;
* `backend/zerorepo/tools/vector_store.py` — diversity sampling;
* `backend/zerorepo/tools/docker_runtime.py` — test-output parsing;
* `backend/zerorepo/codegen/generator.py` and
  `backend/zerorepo/orchestrator.py` — the per-node TDD loop and the
  stage-level result object.

Modelling conventions:

* Python strings are `String`, manipulated through their `List Char`
  data where character-level operations (splitting, substring search,
  lowercasing) are required; the helpers mirror the semantics of the
  Python operations they model (`str.split`, `in`, `str.lower`, ...).
* Python `set` objects are modelled either as `Finset` (where set
  algebra is computed, as in the Jaccard filter) or as lists with
  insert-if-absent discipline (where only membership and iteration are
  used).
* Python floats are modelled as `ℚ`.  Every float comparison in the
  modelled code compares against the literals 0.2 and 0.8 with operands
  that are at distance at least 1/(5·denominator) from the threshold, so
  the binary-float comparison and the exact rational comparison agree.
* LLM calls, the Docker sandbox and the filesystem are effects outside
  the program text; they enter the model as explicit oracle parameters
  (functions from attempt number / node id to the observed outcome), and
  file writes are counted rather than performed.
* `networkx` calls are embedded by their documented semantics for the
  graphs this code builds: `nx.DiGraph` keeps nodes and deduplicated
  edges in insertion order, `topological_sort` yields the Kahn
  generations of `topological_generations` (`peel` gives the generations
  as sets; `topological_sort_sweep` also fixes the within-generation
  order to the in-degree-zero sweep order) and raises
  `NetworkXUnfeasible` (modelled as `none`) on a cycle, and `ego_graph`
  collects nodes at directed distance at most `radius`.
-/

namespace ZeroRepo

/-! ### Character-list helpers (Python string semantics) -/

/-- Test whether the first list is a prefix of the second (Boolean). -/
def isPrefixL : List Char → List Char → Bool
  | [], _ => true
  | _ :: _, [] => false
  | a :: as, b :: bs => a = b && isPrefixL as bs

/-- Python's `needle in haystack` substring test. -/
def containsSub (needle : List Char) : List Char → Bool
  | [] => needle.isEmpty
  | c :: rest => isPrefixL needle (c :: rest) || containsSub needle rest

/-- Python's `s.split(sep)` for a one-character separator: splitting on
every occurrence, keeping empty segments; the result is always
nonempty. -/
def splitOnChar (sep : Char) : List Char → List (List Char)
  | [] => [[]]
  | c :: cs =>
    if c = sep then [] :: splitOnChar sep cs
    else
      match splitOnChar sep cs with
      | s :: rest => (c :: s) :: rest
      | [] => [[c]]

/-- Python's `s.split('/')`. -/
def splitSlash : List Char → List (List Char) :=
  splitOnChar '/'

/-- Python's `str.lower` restricted to the ASCII identifiers that feature
paths are made of. -/
def pyLower (s : String) : List Char :=
  s.data.map Char.toLower

/-- Characters that Python's no-argument `str.split` treats as
whitespace. -/
def isPyWs (c : Char) : Bool :=
  c = ' ' || c = '\t' || c = '\n' || c = '\r' || c = '\x0b' || c = '\x0c'

/-- Python's no-argument `str.split`: split on whitespace runs, dropping
empty parts. -/
def splitWs : List Char → List (List Char)
  | [] => []
  | c :: cs =>
    if isPyWs c then splitWs cs
    else
      match splitWs cs with
      | [] => [[c]]
      | s :: rest =>
        match cs with
        | [] => [[c]]
        | c' :: _ => if isPyWs c' then [c] :: s :: rest else (c :: s) :: rest

/-- Deduplication keeping the first occurrence, with an accumulator of
already seen elements (structural recursion so that it computes in the
kernel). -/
def dedupFirstAux {α : Type} [DecidableEq α] (seen : List α) : List α → List α
  | [] => []
  | x :: xs =>
    if x ∈ seen then dedupFirstAux seen xs
    else x :: dedupFirstAux (x :: seen) xs

/-- Deduplication keeping first occurrences, as a Python `dict` /
`nx.DiGraph` node store does. -/
def dedupFirst {α : Type} [DecidableEq α] (l : List α) : List α :=
  dedupFirstAux [] l

/-- Decimal digits of `n`, least significant first, via explicit fuel so
that the definition is structural and computes in the kernel. -/
def natDigitsRevFuel : Nat → Nat → List Nat
  | 0, _ => []
  | fuel + 1, n => if n = 0 then [] else n % 10 :: natDigitsRevFuel fuel (n / 10)

/-- Value of a little-endian decimal digit list. -/
def digitsVal : List Nat → Nat
  | [] => 0
  | d :: ds => d + 10 * digitsVal ds

/-- Decimal digit character, as Python prints it. -/
def digitChar (d : Nat) : Char :=
  Char.ofNat (48 + d)

/-- Decimal representation of a natural number, as interpolated by a
Python f-string. -/
def natRepr (n : Nat) : String :=
  if n = 0 then "0"
  else String.mk (((natDigitsRevFuel n n).reverse).map digitChar)

/-! ### Data model (`backend/zerorepo/core/models.py`)

`RPGNode.meta` is a free-form dict in the source; the recognized keys
(`feature_path`, `source`, `score`) are modelled as optional fields. -/

/-- Node of a Repository Planning Graph, mirroring the pydantic
`RPGNode`. -/
structure RPGNode where
  id : String
  name : String
  kind : String
  path_hint : Option String := none
  signature : Option String := none
  doc : Option String := none
  children : List String := []
  metaFeaturePath : Option String := none
  metaSource : Option String := none
  metaScore : Option ℚ := none
deriving DecidableEq

/-- Edge of a Repository Planning Graph, mirroring the pydantic
`RPGEdge`. -/
structure RPGEdge where
  from_node : String
  to_node : String
  type : String
  data_id : Option String := none
  data_type : Option String := none
  note : Option String := none
deriving DecidableEq

/-- Repository Planning Graph: node list and edge list in insertion
order (the `metadata` dict carries no behaviour and is omitted). -/
structure RPG where
  nodes : List RPGNode := []
  edges : List RPGEdge := []
deriving DecidableEq

/-- Lookup of `RPG.get_node`: first node with the given id. -/
def RPG.get_node (g : RPG) (node_id : String) : Option RPGNode :=
  g.nodes.find? (fun n => n.id == node_id)

/-- Feature path record, mirroring the pydantic `FeaturePath`. -/
structure FeaturePath where
  path : String
  score : ℚ
  source : String
deriving DecidableEq

/-! ### Graph operations (`backend/zerorepo/rpg/graph_ops.py`)

`build_networkx_graph` adds every RPG node, then every `data_flow` /
`order` edge (`add_edge` also inserting endpoints missing from the node
list).  The resulting `nx.DiGraph` is modelled by its insertion-ordered,
deduplicated node-id list `gNodeIds` and its `data_flow`/`order` edge
pair list `dfOrderPairs`. -/

/-- Edge pairs that `build_networkx_graph` adds: the `data_flow` and
`order` edges, in insertion order. -/
def dfOrderPairs (g : RPG) : List (String × String) :=
  (g.edges.filter (fun e => e.type == "data_flow" || e.type == "order")).map
    (fun e => (e.from_node, e.to_node))

/-- Node ids of the built `nx.DiGraph`: all RPG node ids followed by the
endpoints that `add_edge` inserts, first occurrences kept. -/
def gNodeIds (g : RPG) : List String :=
  dedupFirst (g.nodes.map (fun n => n.id) ++
    (dfOrderPairs g).flatMap (fun p => [p.1, p.2]))

/-- Ids of the class/function leaf nodes, in node-list order. -/
def leafIds (g : RPG) : List String :=
  (g.nodes.filter (fun n => n.kind == "function" || n.kind == "class")).map
    (fun n => n.id)

/-- Edge pairs of the `G.subgraph(leaf_nodes)` view: the
`data_flow`/`order` pairs with both endpoints among the leaf ids. -/
def subEdges (g : RPG) : List (String × String) :=
  (dfOrderPairs g).filter
    (fun p => (leafIds g).contains p.1 && (leafIds g).contains p.2)

/-- Readiness test of Kahn peeling: every edge into `v` comes from an
already emitted node. -/
def ready (edges : List (String × String)) (done : List String) (v : String) : Bool :=
  edges.all (fun e => !(e.2 == v) || done.contains e.1)

/-- Kahn peeling by generations: emit every ready pending node, then
recurse on the rest; an empty generation with pending nodes left means a
cycle, on which networkx raises `NetworkXUnfeasible`, modelled as
`none`.  This computes the same generations (as sets) as
`nx.topological_generations`, but emits each generation in pending
order; the order-faithful sweep, which emits generation n+1 in the order
in-degrees reach zero while generation n is swept, is
`topological_sort_sweep` below.  The fuel argument makes the recursion
structural. -/
def peel (edges : List (String × String)) : Nat → List String → List String → Option (List String)
  | _, _, [] => some []
  | 0, _, _ :: _ => none
  | fuel + 1, done, p :: ps =>
    let pending := p :: ps
    let lyr := pending.filter (ready edges done)
    let rest := pending.filter (fun v => !ready edges done v)
    if lyr.isEmpty then none
    else
      match peel edges fuel (done ++ lyr) rest with
      | some out => some (lyr ++ out)
      | none => none

/-- Embedding of `RPGGraphOps.topological_sort`: Kahn peeling of the
leaf subgraph.  `none` models the `NetworkXUnfeasible` exception that a
cycle raises (the `except nx.NetworkXError` fallback in the source does
not catch `NetworkXUnfeasible`, so the exception propagates). -/
def topological_sort (g : RPG) : Option (List String) :=
  peel (subEdges g) (leafIds g).length [] (leafIds g)

/-- Successors of `u` in the built graph, in edge-insertion order,
deduplicated as repeated `add_edge` calls are (`G.neighbors` iteration
order). -/
def succsOf (edges : List (String × String)) (u : String) : List String :=
  dedupFirst ((edges.filter (fun e => e.1 == u)).map (fun e => e.2))

/-- Keep the last occurrence of every element.
`topological_generations` appends a node to the next generation at the
moment its in-degree counter reaches zero, i.e. while its last
not-yet-swept predecessor is being processed. -/
def lastDedup (l : List String) : List String :=
  (dedupFirst l.reverse).reverse

/-- One sweep of `nx.topological_generations`: the next generation, in
the order in-degree counters reach zero while the current generation is
swept in order, each node's successors in adjacency order; a successor
enters the next generation exactly when all its predecessors have been
emitted (are in `done ++ gen`). -/
def sweepNext (edges : List (String × String)) (done gen : List String) : List String :=
  (lastDedup (gen.flatMap (fun u => succsOf edges u))).filter
    (fun v => ready edges (done ++ gen) v)

/-- The generation loop of `nx.topological_sort` (which yields from
`topological_generations`): emit each generation in sweep order; when no
generation is left while nodes remain unemitted (checked against the
node count, exact under the spec's id-uniqueness invariant), the
`indegree_map` is nonempty and networkx raises `NetworkXUnfeasible`,
modelled as `none`. -/
def nxGens (edges : List (String × String)) (total : Nat) :
    Nat → List String → List String → Option (List String)
  | _, done, [] => if done.length = total then some done else none
  | 0, _, _ :: _ => none
  | fuel + 1, done, g :: grest =>
    nxGens edges total fuel (done ++ g :: grest) (sweepNext edges done (g :: grest))

/-- Order-faithful embedding of `RPGGraphOps.topological_sort`: the
`nx.topological_generations` sweep over the class/function subgraph
view.  Generation 0 is the zero-in-degree leaves in node insertion
order; each later generation is emitted in the order in-degrees reach
zero.  (`topological_sort` above computes the same generations as sets;
this refinement also fixes the order within each generation.) -/
def topological_sort_sweep (g : RPG) : Option (List String) :=
  nxGens (subEdges g) (leafIds g).length (leafIds g).length []
    ((leafIds g).filter (fun v => ready (subEdges g) [] v))

/-- One frontier expansion along directed edges: keep the current set
and add every direct successor of a member. -/
def expandOnce (edges : List (String × String)) (s : List String) : List String :=
  s ++ (edges.filter (fun e => s.contains e.1)).map (fun e => e.2)

/-- Iterated frontier expansion: ids at directed distance at most `n`
from a member of `s`. -/
def expandN (edges : List (String × String)) : Nat → List String → List String
  | 0, s => s
  | n + 1, s => expandN edges n (expandOnce edges s)

/-- Embedding of `RPGGraphOps.get_neighborhood`: `nx.ego_graph` on the
built directed graph collects the nodes at directed distance at most
`radius` from `node_id`; the comprehension then keeps those ids that
`rpg.get_node` resolves.  Returns ids (the source returns the resolved
node objects). -/
def get_neighborhood (g : RPG) (node_id : String) (radius : Nat) : List String :=
  if (gNodeIds g).contains node_id then
    ((expandN (dfOrderPairs g) radius [node_id]).filter
      (fun nid => (g.get_node nid).isSome))
  else []

/-- Validation errors of `validate_dag`, as tags for the message strings
the source builds. -/
inductive VErr where
  | cycles : VErr
  | excessiveIsolated : VErr
  | missingSource (id : String) : VErr
  | missingTarget (id : String) : VErr
deriving DecidableEq

/-- Count of isolated nodes of the built graph: graph nodes with no
incident `data_flow`/`order` edge, as `nx.isolates` reports. -/
def isolatedCount (g : RPG) : Nat :=
  ((gNodeIds g).filter
    (fun v => (dfOrderPairs g).all (fun e => !(e.1 == v) && !(e.2 == v)))).length

/-- Embedding of `RPGGraphOps.validate_dag`.  The cycle check models
`list(nx.simple_cycles(G))` being nonempty by Kahn peeling failing; the
isolated check models `len(isolated) > len(nodes) * 0.8` (exact
rational comparison `5·isolated > 4·len`, which agrees with the float
comparison for every graph smaller than 2^49 nodes); the reference
check walks all edges in order. -/
def validate_dag (g : RPG) : Bool × List VErr :=
  let cycleErrs :=
    if (peel (dfOrderPairs g) (gNodeIds g).length [] (gNodeIds g)).isNone
    then [VErr.cycles] else []
  let isoErrs :=
    if 5 * isolatedCount g > 4 * g.nodes.length then [VErr.excessiveIsolated] else []
  let nodeIds := g.nodes.map (fun n => n.id)
  let refErrs := g.edges.flatMap (fun e =>
    (if nodeIds.contains e.from_node then [] else [VErr.missingSource e.from_node]) ++
    (if nodeIds.contains e.to_node then [] else [VErr.missingTarget e.to_node]))
  let errors := cycleErrs ++ isoErrs ++ refErrs
  (errors.isEmpty, errors)

/-- Relation view of the `data_flow`/`order` edges of an RPG (used to
state acyclicity of the claim's subgraph). -/
def dfOrderRel (g : RPG) (u v : String) : Prop :=
  (u, v) ∈ dfOrderPairs g

/-- Specification-side comparison key of section 4.1 of the spec:
`path_hint` then `name` (read on the character lists so that the order
computes). -/
def charListLE : List Char → List Char → Bool
  | [], _ => true
  | _ :: _, [] => false
  | a :: as, b :: bs =>
    if a = b then charListLE as bs else decide (a < b)

/-- Specification-side key order on nodes: `path_hint` (missing reads as
empty) then `name`. -/
def specKeyLE (a b : RPGNode) : Bool :=
  let pa := (a.path_hint.getD "").data
  let pb := (b.path_hint.getD "").data
  if pa = pb then charListLE a.name.data b.name.data else charListLE pa pb

/-- Insertion into a list sorted by `specKeyLE`. -/
def specKeyInsert (n : RPGNode) : List RPGNode → List RPGNode
  | [] => [n]
  | m :: ms => if specKeyLE n m then n :: m :: ms else m :: specKeyInsert n ms

/-- Insertion sort by `specKeyLE`. -/
def specKeySort : List RPGNode → List RPGNode
  | [] => []
  | n :: ns => specKeyInsert n (specKeySort ns)

/-- Specification-side topological order of section 4.1 for an RPG with
no ordering constraints among the leaves: the class/function nodes
sorted by the deterministic key `(path_hint, name)`. -/
def specKeyOrder (g : RPG) : List String :=
  (specKeySort (g.nodes.filter (fun n => n.kind == "function" || n.kind == "class"))).map
    (fun n => n.id)

/-- Bounded directed reachability: `ReachWithin R n x y` holds when there
is a path of at most `n` `R`-steps from `x` to `y`.  Used to state what
`get_neighborhood` computes. -/
inductive ReachWithin (R : String → String → Prop) : Nat → String → String → Prop
  | refl (n x) : ReachWithin R n x x
  | step {n x y z} : R x y → ReachWithin R n y z → ReachWithin R (n + 1) x z

/-- Specification-side neighborhood of section 4.1: nodes reachable
within `r` hops over the undirected projection of the `data_flow`,
`depends_on` and `order` edges, restricted to ids that resolve to RPG
nodes. -/
def specNeighborhood (g : RPG) (node_id : String) (radius : Nat) : List String :=
  let pairsAll := g.edges.map (fun e => (e.from_node, e.to_node))
  let undirected := pairsAll ++ pairsAll.map (fun p => (p.2, p.1))
  (expandN undirected radius [node_id]).filter (fun nid => (g.get_node nid).isSome)

/-! ### Proposal stage (`backend/zerorepo/plan/proposal.py`) -/

/-- Blocklist of `_is_generic_infrastructure`. -/
def genericPatterns : List String :=
  ["logging", "config", "utils", "helpers", "common",
   "base", "abstract", "interface", "setup", "init"]

/-- Embedding of `_is_generic_infrastructure`: some blocklist word is a
substring of the lowercased path. -/
def isGenericInfrastructure (path : String) : Bool :=
  genericPatterns.any (fun pat => containsSub pat.data (pyLower path))

/-- Segment set of a path: Python's `set(path.split('/'))`. -/
def segFinset (p : String) : Finset (List Char) :=
  (splitSlash p.data).toFinset

/-- Embedding of `_is_too_similar_to_existing`: Jaccard similarity of
segment sets above 0.8 against some already selected path.  The float
comparison `intersection/union > 0.8` is modelled by the exact rational
comparison `5·intersection > 4·union`, which agrees with the float
comparison for all set sizes in range. -/
def isTooSimilarTo (selected : List String) (new_path : String) : Bool :=
  selected.any (fun existing =>
    let np := segFinset new_path
    let ep := segFinset existing
    0 < (np ∪ ep).card && 4 * (np ∪ ep).card < 5 * (np ∩ ep).card)

/-- Mutable state of `ProposalController`: the `selected` and `rejected`
Python sets, as insertion lists queried by membership. -/
structure PropState where
  selected : List String
  rejected : List String
deriving DecidableEq

/-- Body of the `_accept_features` loop for one candidate: returns the
updated state and whether the candidate was accepted.  The float
threshold `score < 0.2` is modelled by the exact `score < 1/5`. -/
def acceptOne (st : PropState) (fp : FeaturePath) : PropState × Bool :=
  if st.selected.contains fp.path || st.rejected.contains fp.path then (st, false)
  else if isGenericInfrastructure fp.path then
    ({ st with rejected := fp.path :: st.rejected }, false)
  else if fp.score < (1 : ℚ)/5 then
    ({ st with rejected := fp.path :: st.rejected }, false)
  else if isTooSimilarTo st.selected fp.path then
    ({ st with rejected := fp.path :: st.rejected }, false)
  else ({ st with selected := fp.path :: st.selected }, true)

/-- Embedding of `_accept_features`: fold the acceptance gate over the
candidate list, returning the final state and the accepted candidates
in order. -/
def acceptFeatures (st : PropState) : List FeaturePath → PropState × List FeaturePath
  | [] => (st, [])
  | fp :: rest =>
    let r1 := acceptOne st fp
    let r2 := acceptFeatures r1.1 rest
    (r2.1, if r1.2 then fp :: r2.2 else r2.2)

/-! ### Capability graph construction (`_build_capability_graph`) -/

/-- Node id generated for the `k`-th created capability node:
`f"cap-{len(nodes)}"`. -/
def capId (k : Nat) : String :=
  "cap-" ++ natRepr k

/-- Python's `str.title()` on ASCII text: uppercase a letter after a
non-letter, lowercase the other letters. -/
def pyTitleAux : Bool → List Char → List Char
  | _, [] => []
  | prevNonAlpha, c :: cs =>
    (if c.isAlpha then (if prevNonAlpha then c.toUpper else c.toLower) else c) ::
      pyTitleAux (!c.isAlpha) cs

/-- Display name of a capability: `part.replace('_', ' ').title()`. -/
def displayName (part : String) : String :=
  String.mk (pyTitleAux true (part.data.map (fun c => if c = '_' then ' ' else c)))

/-- Association-list lookup, modelling Python dict indexing (keys are
unique by construction, so first match suffices). -/
def lookupA : List (String × String) → String → Option String
  | [], _ => none
  | e :: rest, k => if e.1 = k then some e.2 else lookupA rest k

/-- Mutable state of `_build_capability_graph`: the `nodes` and `edges`
lists and the `path_to_node` dict. -/
structure BuildSt where
  nodes : List RPGNode
  edges : List RPGEdge
  pathToNode : List (String × String)
deriving DecidableEq

/-- Append a child id to the first node with the given id, modelling
`parent_node.children.append(node_id)` after the `next(...)` lookup. -/
def appendChild : List RPGNode → String → String → List RPGNode
  | [], _, _ => []
  | n :: ns, pid, cid =>
    if n.id = pid then { n with children := n.children ++ [cid] } :: ns
    else n :: appendChild ns pid cid

/-- The capability node created by `_build_capability_graph` for a fresh
prefix, when `len(nodes)` is `k`. -/
def newCapNode (fp : FeaturePath) (part curPath : String) (k : Nat) : RPGNode :=
  { id := capId k, name := displayName part, kind := "capability",
    doc := some ("Capability: " ++ curPath),
    metaFeaturePath := some curPath, metaSource := some fp.source,
    metaScore := some fp.score }

/-- Loop body of `_build_capability_graph` for one path segment: reuse
the node of `curPath` if the dict knows it, otherwise create it (and,
when a parent id is at hand, add the containment edge and append the
child to the parent, matching the `if parent_node_id:` truthiness test —
generated ids are never empty). -/
def addPrefixStep (fp : FeaturePath) (part : String) (curPath : String)
    (parentId : Option String) (st : BuildSt) : BuildSt × String :=
  match lookupA st.pathToNode curPath with
  | some nid => (st, nid)
  | none =>
    let nid := capId st.nodes.length
    let node : RPGNode := newCapNode fp part curPath st.nodes.length
    let nodes1 := st.nodes ++ [node]
    match parentId with
    | some pid =>
      ({ nodes := appendChild nodes1 pid nid,
         edges := st.edges ++
           [{ from_node := pid, to_node := nid, type := "depends_on",
              note := some "hierarchical containment" }],
         pathToNode := st.pathToNode ++ [(curPath, nid)] }, nid)
    | none =>
      ({ nodes := nodes1, edges := st.edges,
         pathToNode := st.pathToNode ++ [(curPath, nid)] }, nid)

/-- Accumulation of `current_path` in the builder loop: a slash is
inserted only when the accumulated path is truthy (nonempty). -/
def nextPrefix (cur part : String) : String :=
  if cur = "" then cur ++ part else cur ++ "/" ++ part

/-- Walk of the builder over the segments of one feature path. -/
def buildWalk (fp : FeaturePath) : List String → String → Option String → BuildSt → BuildSt
  | [], _, _, st => st
  | part :: rest, cur, parentId, st =>
    let cur' := nextPrefix cur part
    let r := addPrefixStep fp part cur' parentId st
    buildWalk fp rest cur' (some r.2) r.1

/-- Segments of a feature path: `feature_path.path.split('/')`. -/
def pathParts (path : String) : List String :=
  (splitSlash path.data).map (fun cs => String.mk cs)

/-- Processing of one feature path by `_build_capability_graph`. -/
def buildOnePath (st : BuildSt) (fp : FeaturePath) : BuildSt :=
  buildWalk fp (pathParts fp.path) "" none st

/-- Hand-authored dependency pattern table of
`_add_capability_dependencies`. -/
def dependencyPatterns : List (String × String) :=
  [("data/loading", "data/preprocessing"),
   ("data/preprocessing", "data/validation"),
   ("ml/data", "ml/algorithms"),
   ("ml/algorithms", "ml/evaluation"),
   ("ml/preprocessing", "ml/algorithms"),
   ("core/base", "algorithms"),
   ("utils", "algorithms"),
   ("config", "core")]

/-- Keys of a Python dict built from an entry list: first occurrences in
insertion order. -/
def dictKeys (entries : List (String × RPGNode)) : List String :=
  dedupFirst (entries.map (fun e => e.1))

/-- Value stored in a Python dict for a key: the last binding. -/
def dictLookupLast (entries : List (String × RPGNode)) (k : String) : Option RPGNode :=
  (entries.reverse).find? (fun e => e.1 == k) |>.map (fun e => e.2)

/-- Items of a Python dict built from an entry list. -/
def dictItems (entries : List (String × RPGNode)) : List (String × RPGNode) :=
  (dictKeys entries).filterMap (fun k => (dictLookupLast entries k).map (fun v => (k, v)))

/-- Embedding of `_add_capability_dependencies`: for each pattern pair,
link every node whose `feature_path` contains the source pattern to
every distinct node whose `feature_path` contains the target pattern. -/
def addCapabilityDeps (nodes : List RPGNode) (edges : List RPGEdge) : List RPGEdge :=
  let items := dictItems (nodes.map (fun n => (n.metaFeaturePath.getD "", n)))
  edges ++ dependencyPatterns.flatMap (fun pat =>
    (items.filter (fun it => containsSub pat.1.data it.1.data)).flatMap (fun src =>
      ((items.filter (fun it => containsSub pat.2.data it.1.data)).filter
        (fun tgt => src.2.id ≠ tgt.2.id)).map (fun tgt =>
        ({ from_node := src.2.id, to_node := tgt.2.id, type := "depends_on",
           note := some "logical dependency" } : RPGEdge))))

/-- Embedding of `_build_capability_graph` (the `metadata` dict of the
returned RPG carries no behaviour and is omitted). -/
def buildCapabilityGraph (fps : List FeaturePath) : RPG :=
  let st := fps.foldl buildOnePath { nodes := [], edges := [], pathToNode := [] }
  { nodes := st.nodes, edges := addCapabilityDeps st.nodes st.edges }

/-- Chain of `current_path` values produced while walking the given
segments from the given accumulated path. -/
def chainAux : String → List String → List String
  | _, [] => []
  | cur, part :: rest =>
    let c := nextPrefix cur part
    c :: chainAux c rest

/-- Prefixes that `_build_capability_graph` materializes for one feature
path, in walk order. -/
def chainPrefixes (path : String) : List String :=
  chainAux "" (pathParts path)

/-- Consecutive (parent, child) prefix pairs of a prefix chain. -/
def consecPairs (l : List String) : List (String × String) :=
  l.zip l.tail

/-- All prefixes materialized for a feature-path list. -/
def allPrefixes (fps : List FeaturePath) : List String :=
  fps.flatMap (fun fp => chainPrefixes fp.path)


/-- Join of segments with slashes, the inverse of `splitSlash`. -/
def joinSlash : List (List Char) → List Char
  | [] => []
  | [s] => s
  | s :: rest => s ++ '/' :: joinSlash rest

/-- Canonical parent of a materialized prefix: the prefix with the last
segment removed, when there are at least two segments. -/
def parentOfPrefix (p : String) : Option String :=
  if (splitSlash p.data).length ≤ 1 then none
  else some (String.mk (joinSlash ((splitSlash p.data).dropLast)))

/-- Containment link of the builder state: a parent node for prefix `a`
and a child node for prefix `b`, joined by the noted `depends_on` edge,
with the child id recorded in the parent's `children`. -/
def ContainLink (nodes : List RPGNode) (edges : List RPGEdge) (a b : String) : Prop :=
  ∃ pn ∈ nodes, ∃ cn ∈ nodes,
    pn.metaFeaturePath = some a ∧ cn.metaFeaturePath = some b ∧
    ({ from_node := pn.id, to_node := cn.id, type := "depends_on",
       note := some "hierarchical containment" } : RPGEdge) ∈ edges ∧
    cn.id ∈ pn.children

/-- Bookkeeping invariant of `_build_capability_graph`: node ids are
`cap-0 … cap-(n-1)` in order, the `path_to_node` dict mirrors the node
list (values are the ids in order, keys are the `feature_path` values in
order and are distinct), every node is a capability, and every dict key
with a parent prefix is containment-linked to it. -/
def BInv (st : BuildSt) : Prop :=
  st.nodes.map (fun n => n.id) = (List.range st.nodes.length).map capId ∧
  st.pathToNode.map (fun e => e.2) = st.nodes.map (fun n => n.id) ∧
  st.pathToNode.map (fun e => some e.1) = st.nodes.map (fun n => n.metaFeaturePath) ∧
  (st.pathToNode.map (fun e => e.1)).Nodup ∧
  (∀ n ∈ st.nodes, n.kind = "capability") ∧
  ∀ pr ∈ st.pathToNode, ∀ a, parentOfPrefix pr.1 = some a →
    ContainLink st.nodes st.edges a pr.1

/-! ### Vector store (`backend/zerorepo/tools/vector_store.py`) -/

/-- Features surviving the exclusion set and the domain filter in
`sample_diverse_features` (an empty-string filter is falsy in Python and
filters nothing; `startswith` is prefix matching). -/
def availableFeatures (store : List FeaturePath) (exclude : List String)
    (domainFilter : Option String) : List FeaturePath :=
  let avail0 := store.filter (fun fp => !(exclude.contains fp.path))
  match domainFilter with
  | none => avail0
  | some d => if d = "" then avail0 else avail0.filter (fun fp => isPrefixL d.data fp.path.data)

/-- Embedding of `VectorStore.sample_diverse_features`.  The store is
its `feature_paths` list (`index.ntotal` equals its length).  The
`random.sample(available, k)` draw is modelled by the oracle `pick`, a
list of positions into the available list; the sampled features are
retagged `source="explore"`, `score=0.6` (the source mutates the shared
records in place; the model only returns the retagged values). -/
def sampleDiverseFeatures (store : List FeaturePath) (exclude : List String) (k : Nat)
    (domainFilter : Option String) (pick : List Nat) : List FeaturePath :=
  if store.length = 0 then []
  else
    let avail := availableFeatures store exclude domainFilter
    if avail.length ≤ k then avail
    else (pick.filterMap (fun i => avail.get? i)).map
      (fun fp => { fp with source := "explore", score := (3 : ℚ)/5 })

/-! ### Test-output parsing (`backend/zerorepo/tools/docker_runtime.py`) -/

/-- Test statistics of `_parse_test_output` (Python ints, which may be
negative when a summary token like `-5 passed` is parsed). -/
structure TestStats where
  total : Int
  passed : Int
  failed : Int
deriving DecidableEq

/-- ASCII digit test. -/
def isDigitB (c : Char) : Bool :=
  '0' ≤ c && c ≤ '9'

/-- Digits after the leading one in a Python integer literal: digits
with single interior underscores. -/
def intDigitsRest : List Char → Bool
  | [] => true
  | '_' :: rest =>
    match rest with
    | d :: rest' => isDigitB d && intDigitsRest rest'
    | [] => false
  | c :: rest => isDigitB c && intDigitsRest rest

/-- Value of a digit string, underscores skipped. -/
def digitsVal10 (ds : List Char) : Nat :=
  (ds.filter (fun c => c ≠ '_')).foldl (fun acc c => 10 * acc + (c.toNat - 48)) 0

/-- Unsigned Python `int(...)` on a whitespace-free token. -/
def digitsOf? (ds : List Char) : Option Nat :=
  match ds with
  | d :: rest => if isDigitB d && intDigitsRest rest then some (digitsVal10 (d :: rest)) else none
  | [] => none

/-- Python `int(...)` on a whitespace-free token: optional sign, then
digits (`ValueError` is `none`, which the source swallows with
`try/except ValueError: pass`). -/
def pyInt? (cs : List Char) : Option Int :=
  match cs with
  | '-' :: ds => (digitsOf? ds).map (fun n => -(n : Int))
  | '+' :: ds => (digitsOf? ds).map (fun n => (n : Int))
  | ds => (digitsOf? ds).map (fun n => (n : Int))

/-- Guard of the summary-line scan: `" passed" in line or " failed" in
line` (note the source compares whole tokens `parts[i] == "passed"`
afterwards). -/
def lineHasSummaryWord (line : List Char) : Bool :=
  containsSub " passed".data line || containsSub " failed".data line

/-- Inner token scan of `_parse_test_output` on one line: each exact
`passed` / `failed` token with a parsable predecessor overwrites the
corresponding counter. -/
def updateStats (parts : List (List Char)) (st : Int × Int) : Int × Int :=
  parts.enum.foldl (fun acc ip =>
    if ip.2 == "passed".data && decide (0 < ip.1) then
      match parts.get? (ip.1 - 1) with
      | some prev =>
        match pyInt? prev with
        | some v => (v, acc.2)
        | none => acc
      | none => acc
    else if ip.2 == "failed".data && decide (0 < ip.1) then
      match parts.get? (ip.1 - 1) with
      | some prev =>
        match pyInt? prev with
        | some v => (acc.1, v)
        | none => acc
      | none => acc
    else acc) st

/-- Embedding of `_parse_test_output`: scan every line, then report
`total = passed + failed`. -/
def parseTestOutput (output : String) : TestStats :=
  let st := (splitOnChar '\n' output.data).foldl (fun acc line =>
    if lineHasSummaryWord line then updateStats (splitWs line) acc else acc)
    ((0 : Int), (0 : Int))
  { total := st.1 + st.2, passed := st.1, failed := st.2 }

/-- Scan deciding whether any line carries a parsable `<N> passed` or
`<N> failed` count (the trigger condition of the parser's counter
assignments). -/
def hasParsableCount (output : String) : Bool :=
  (splitOnChar '\n' output.data).any (fun line =>
    lineHasSummaryWord line &&
    (splitWs line).enum.any (fun ip =>
      (ip.2 == "passed".data || ip.2 == "failed".data) && decide (0 < ip.1) &&
      (match (splitWs line).get? (ip.1 - 1) with
       | some prev => (pyInt? prev).isSome
       | none => false)))

/-- Result dict of `_run_all_tests_subprocess` on the path where the
process ran to completion with the given exit code and merged output. -/
structure RunAllResult where
  success : Bool
  exit_code : Int
  stats : TestStats
deriving DecidableEq

/-- Embedding of the completed-process branch of
`_run_all_tests_subprocess`: `success` comes from the exit code alone
and the statistics from parsing the merged output. -/
def runAllTestsCompleted (exit_code : Int) (output : String) : RunAllResult :=
  { success := exit_code = 0, exit_code := exit_code, stats := parseTestOutput output }

/-! ### Code generation (`backend/zerorepo/codegen/generator.py`) -/

/-- Oracle view of the effects of `_generate_node_code` for one node:
the generated test and implementation texts (empty on an LLM failure,
which the source treats as falsy), the sandbox verdict per attempt
index, and whether the repair-LLM call of an attempt succeeds (an
exception there breaks the loop). -/
structure NodeGenEnv where
  testGen : String
  implGen : String
  sandboxOk : Nat → Bool
  fixOk : Nat → Bool

/-- Observable trace of `_generate_node_code`: final verdict and how
many sandbox runs / implementation writes / test-file writes happened. -/
structure NodeGenTrace where
  success : Bool
  sandboxRuns : Nat
  implWrites : Nat
  testWrites : Nat
deriving DecidableEq

/-- Repair loop `for attempt in range(max_retries)`: each iteration
writes the implementation and runs the sandbox once; on failure it asks
for a fix and continues, or breaks if that call raises.  Returns the
verdict and the number of sandbox runs. -/
def nodeAttemptLoop (sandboxOk fixOk : Nat → Bool) : Nat → Nat → Bool × Nat
  | 0, _ => (false, 0)
  | remaining + 1, attempt =>
    if sandboxOk attempt then (true, 1)
    else if fixOk attempt then
      let r := nodeAttemptLoop sandboxOk fixOk remaining (attempt + 1)
      (r.1, r.2 + 1)
    else (false, 1)

/-- Embedding of `_generate_node_code`: empty test text fails before any
write; empty implementation text fails after the test file is written;
otherwise the repair loop runs with `max_retries` iterations (each
iteration writes the implementation, then runs the sandbox). -/
def generateNodeCode (env : NodeGenEnv) (maxRetries : Nat) : NodeGenTrace :=
  if env.testGen.isEmpty then { success := false, sandboxRuns := 0, implWrites := 0, testWrites := 0 }
  else if env.implGen.isEmpty then
    { success := false, sandboxRuns := 0, implWrites := 0, testWrites := 1 }
  else
    let r := nodeAttemptLoop env.sandboxOk env.fixOk maxRetries 0
    { success := r.1, sandboxRuns := r.2, implWrites := r.2, testWrites := 1 }

/-- Python-set insertion for the generated/failed file sets (elements
are `path_hint` values, which may be `None`). -/
def addToSet (l : List (Option String)) (x : Option String) : List (Option String) :=
  if l.contains x then l else l ++ [x]

/-- Integration-test report assembled by `_run_integration_tests`
(presence only; the tag is one of `passed`, `failed`, `no_tests`,
`error`). -/
structure IntegrationReport where
  tag : String
  total_tests : Nat := 0
  passed_tests : Nat := 0
  failed_tests : Nat := 0
deriving DecidableEq

/-- Result object of the codegen stage, modelling the pydantic
`GenerationResult`: every field always exists (pydantic defaults), and
`metricsKeys` lists the keys present in the `metrics` dict, with the
`success_rate` value carried un-divided as numerator/denominator. -/
structure StageResult where
  success : Bool
  generated_files : List (Option String) := []
  failed_files : List (Option String) := []
  test_results : Option IntegrationReport := none
  errors : List String := []
  metricsKeys : List String := []
  total_nodes : Nat := 0
  successfulCount : Nat := 0
  failedCount : Nat := 0
  successRateNum : Nat := 0
  successRateDen : Nat := 1
deriving DecidableEq

/-- Accumulator of the generation loop of `generate_repository`. -/
structure StageAcc where
  generated : List (Option String)
  failed : List (Option String)
  successful : Nat
  failedN : Nat
deriving DecidableEq

/-- Loop body of `generate_repository` for one id of the topological
order: skip unresolved ids and non-leaf kinds; otherwise consult the
per-node outcome (`some true` success, `some false` returned failure,
`none` an exception caught by the `except` arm — both failure paths add
to `failed_files`). -/
def stageStep (g : RPG) (outcome : String → Option Bool) (acc : StageAcc) (nid : String) :
    StageAcc :=
  match g.get_node nid with
  | none => acc
  | some n =>
    if n.kind == "function" || n.kind == "class" then
      match outcome n.id with
      | some true =>
        { acc with generated := addToSet acc.generated n.path_hint,
                   successful := acc.successful + 1 }
      | _ =>
        { acc with failed := addToSet acc.failed n.path_hint,
                   failedN := acc.failedN + 1 }
    else acc

/-- Embedding of `CodeGenerator.generate_repository`: topological sort
(whose cycle exception propagates, modelled as `Except.error`), the
generation loop, then the result object with `success = (failed == 0)`
and the metrics keys including `success_rate`. -/
def generateRepository (g : RPG) (outcome : String → Option Bool)
    (integ : IntegrationReport) : Except String StageResult :=
  match topological_sort g with
  | none => Except.error "NetworkXUnfeasible"
  | some order =>
    let acc := order.foldl (stageStep g outcome) ⟨[], [], 0, 0⟩
    Except.ok
      { success := acc.failedN = 0,
        generated_files := acc.generated,
        failed_files := acc.failed,
        test_results := some integ,
        errors := [],
        metricsKeys := ["total_nodes", "successful", "failed", "total_loc",
                        "total_tests", "success_rate"],
        total_nodes := order.length,
        successfulCount := acc.successful,
        failedCount := acc.failedN,
        successRateNum := acc.successful,
        successRateDen := max order.length 1 }

/-- Embedding of `ZeroRepoOrchestrator.run_full_pipeline` around the
codegen stage: on the normal path the orchestrator adds the proposal
metrics keys; on any exception it builds a fresh `GenerationResult`
whose `metrics` dict is exactly `{"pipeline_error": True}` (every other
field takes its pydantic default). -/
def runFullPipeline (stage : Except String StageResult) : StageResult :=
  match stage with
  | Except.ok r =>
    { r with metricsKeys := r.metricsKeys ++ ["total_features", "proposal_nodes"] }
  | Except.error e =>
    { success := false,
      errors := ["Pipeline failed: " ++ e],
      metricsKeys := ["pipeline_error"] }

/-! ### Concrete example inputs used by counterexamples and witnesses -/

/-- Example RPG: two function nodes with a single `data_flow` edge. -/
def exRpgEdgeAB : RPG :=
  { nodes := [{ id := "a", name := "a", kind := "function" },
              { id := "b", name := "b", kind := "function" }],
    edges := [{ from_node := "a", to_node := "b", type := "data_flow" }] }

/-- Example RPG: two isolated function nodes whose node-list order is
the reverse of their `(path_hint, name)` key order. -/
def exRpgTwoLeaves : RPG :=
  { nodes := [{ id := "n1", name := "b", kind := "function", path_hint := some "b.py" },
              { id := "n2", name := "a", kind := "function", path_hint := some "a.py" }] }

/-- `exRpgTwoLeaves` with the `path_hint`/`name` fields relabelled but
identical ids, kinds and edges. -/
def exRpgTwoLeavesRelabel : RPG :=
  { nodes := [{ id := "n1", name := "z", kind := "function", path_hint := some "z.py" },
              { id := "n2", name := "y", kind := "function", path_hint := some "y.py" }] }

/-- Example RPG: four function nodes inserted a, b, c, d with
`data_flow` edges a→d and b→c, on which the generation sweep emits
[a, b, d, c]. -/
def exRpgSweep : RPG :=
  { nodes := [{ id := "a", name := "a", kind := "function" },
              { id := "b", name := "b", kind := "function" },
              { id := "c", name := "c", kind := "function" },
              { id := "d", name := "d", kind := "function" }],
    edges := [{ from_node := "a", to_node := "d", type := "data_flow" },
              { from_node := "b", to_node := "c", type := "data_flow" }] }

/-- Example RPG: a `data_flow` cycle between two function nodes. -/
def exRpgCycle : RPG :=
  { nodes := [{ id := "a", name := "a", kind := "function" },
              { id := "b", name := "b", kind := "function" }],
    edges := [{ from_node := "a", to_node := "b", type := "data_flow" },
              { from_node := "b", to_node := "a", type := "data_flow" }] }

/-- Example RPG: a single function node. -/
def exRpgOneFun : RPG :=
  { nodes := [{ id := "f1", name := "f", kind := "function",
                path_hint := some "src/f.py" }] }

/-- Example RPG: one capability node and no edges (all nodes isolated). -/
def exRpgIsolated : RPG :=
  { nodes := [{ id := "solo", name := "s", kind := "capability" }] }

/-- Example node-generation oracle whose sandbox and repair calls always
succeed. -/
def exEnvAllTrue : NodeGenEnv :=
  { testGen := "t", implGen := "i", sandboxOk := fun _ => true, fixOk := fun _ => true }

/-- Example integration report. -/
def exInteg : IntegrationReport :=
  { tag := "passed" }

/-- Example store with one feature. -/
def exStoreOne : List FeaturePath :=
  [{ path := "a", score := 1, source := "ontology" }]

/-- Example store with two features. -/
def exStoreTwo : List FeaturePath :=
  [{ path := "a", score := 1, source := "ontology" },
   { path := "b", score := 1, source := "ontology" }]

/-- Example feature-path list whose second path has an empty first
segment. -/
def exFpsLeadingSlash : List FeaturePath :=
  [{ path := "x", score := 1, source := "exploit" },
   { path := "/x", score := 1, source := "exploit" }]

/-- Example feature-path list with two well-formed paths. -/
def exFpsCalc : List FeaturePath :=
  [{ path := "math/basic/add", score := 1, source := "exploit" },
   { path := "math/basic/subtract", score := 1, source := "exploit" }]

/-! ### General helper lemmas -/

theorem contains_iff_mem {α : Type} [BEq α] [LawfulBEq α] (l : List α) (a : α) :
    l.contains a = true ↔ a ∈ l := by
  simp [List.contains, List.elem_eq_mem]

theorem foldl_fixed {α β : Type} {f : β → α → β} {l : List α} {b : β}
    (h : ∀ b' x, x ∈ l → f b' x = b') : l.foldl f b = b := by
  induction l generalizing b with
  | nil => rfl
  | cons x xs ih =>
    rw [List.foldl_cons, h b x (by simp)]
    exact ih (fun b' y hy => h b' y (by simp [hy]))

theorem ranking_irrefl {α : Type} (r : α → α → Prop) (f : α → Nat)
    (hf : ∀ a b, r a b → f a < f b) : ∀ a, ¬ Relation.TransGen r a a := by
  have key : ∀ a b, Relation.TransGen r a b → f a < f b := by
    intro a b h
    induction h with
    | single h => exact hf _ _ h
    | tail _ h ih => exact lt_trans ih (hf _ _ h)
  intro a h
  exact absurd (key a a h) (lt_irrefl _)

theorem mem_dedupFirstAux {α : Type} [DecidableEq α] (x : α) :
    ∀ (l seen : List α), x ∈ dedupFirstAux seen l ↔ x ∈ l ∧ x ∉ seen := by
  intro l
  induction l with
  | nil => intro seen; simp [dedupFirstAux]
  | cons y ys ih =>
    intro seen
    by_cases hy : y ∈ seen
    · rw [dedupFirstAux, if_pos hy, ih seen]
      constructor
      · rintro ⟨h1, h2⟩; exact ⟨List.mem_cons_of_mem _ h1, h2⟩
      · rintro ⟨h1, h2⟩
        rcases List.mem_cons.mp h1 with rfl | h1
        · exact absurd hy h2
        · exact ⟨h1, h2⟩
    · rw [dedupFirstAux, if_neg hy]
      constructor
      · intro h
        rcases List.mem_cons.mp h with rfl | h
        · exact ⟨List.mem_cons_self _ _, hy⟩
        · obtain ⟨h1, h2⟩ := (ih (y :: seen)).mp h
          exact ⟨List.mem_cons_of_mem _ h1, fun hs => h2 (List.mem_cons_of_mem _ hs)⟩
      · rintro ⟨h1, h2⟩
        rcases List.mem_cons.mp h1 with rfl | h1
        · exact List.mem_cons_self _ _
        · by_cases hxy : x = y
          · exact hxy ▸ List.mem_cons_self _ _
          · exact List.mem_cons_of_mem _ ((ih (y :: seen)).mpr
              ⟨h1, fun hs => (List.mem_cons.mp hs).elim hxy h2⟩)

theorem nodup_dedupFirstAux {α : Type} [DecidableEq α] :
    ∀ (l seen : List α), (dedupFirstAux seen l).Nodup := by
  intro l
  induction l with
  | nil => intro seen; simp [dedupFirstAux]
  | cons y ys ih =>
    intro seen
    by_cases hy : y ∈ seen
    · simpa [dedupFirstAux, if_pos hy] using ih seen
    · rw [dedupFirstAux, if_neg hy]
      refine List.nodup_cons.mpr ⟨?_, ih (y :: seen)⟩
      intro hmem
      exact ((mem_dedupFirstAux y ys (y :: seen)).mp hmem).2 (by simp)

theorem mem_dedupFirst {α : Type} [DecidableEq α] (x : α) (l : List α) :
    x ∈ dedupFirst l ↔ x ∈ l := by
  simp [dedupFirst, mem_dedupFirstAux]

theorem nodup_dedupFirst {α : Type} [DecidableEq α] (l : List α) :
    (dedupFirst l).Nodup :=
  nodup_dedupFirstAux l []

/-! ### Lemmas about the codegen node loop and stage fold -/

theorem generateNodeCode_zero (env : NodeGenEnv) :
    (generateNodeCode env 0).success = false ∧ (generateNodeCode env 0).sandboxRuns = 0 ∧
      (generateNodeCode env 0).implWrites = 0 := by
  unfold generateNodeCode
  by_cases h1 : env.testGen.isEmpty <;> by_cases h2 : env.implGen.isEmpty <;>
    simp [h1, h2, nodeAttemptLoop]

theorem mem_addToSet_self (l : List (Option String)) (x : Option String) :
    x ∈ addToSet l x := by
  unfold addToSet
  by_cases h : l.contains x
  · rw [if_pos h]; exact (contains_iff_mem _ _).mp h
  · rw [if_neg h]; simp

theorem mem_addToSet_of_mem {l : List (Option String)} {y : Option String}
    (x : Option String) (h : y ∈ l) : y ∈ addToSet l x := by
  unfold addToSet
  by_cases hc : l.contains x
  · rwa [if_pos hc]
  · rw [if_neg hc]; exact List.mem_append_left _ h

theorem stageStep_no_success (g : RPG) (outcome : String → Option Bool)
    (hout : ∀ nid, outcome nid ≠ some true) (acc : StageAcc) (nid : String) :
    (stageStep g outcome acc nid).generated = acc.generated ∧
    (stageStep g outcome acc nid).successful = acc.successful ∧
    (∀ x ∈ acc.failed, x ∈ (stageStep g outcome acc nid).failed) ∧
    (∀ n, g.get_node nid = some n → (n.kind == "function" || n.kind == "class") = true →
      n.path_hint ∈ (stageStep g outcome acc nid).failed) := by
  cases hgn : g.get_node nid with
  | none =>
    simp only [stageStep, hgn]
    exact ⟨trivial, trivial, fun x h => h, by simp⟩
  | some n =>
    by_cases hk : (n.kind == "function" || n.kind == "class") = true
    · cases ho : outcome n.id with
      | none =>
        simp only [stageStep, hgn, if_pos hk, ho]
        refine ⟨trivial, trivial, fun x h => mem_addToSet_of_mem _ h, ?_⟩
        rintro n' hn' _
        obtain rfl : n = n' := by injection hn'
        exact mem_addToSet_self _ _
      | some b =>
        cases b with
        | true => exact absurd ho (hout n.id)
        | false =>
          simp only [stageStep, hgn, if_pos hk, ho]
          refine ⟨trivial, trivial, fun x h => mem_addToSet_of_mem _ h, ?_⟩
          rintro n' hn' _
          obtain rfl : n = n' := by injection hn'
          exact mem_addToSet_self _ _
    · simp only [stageStep, hgn, if_neg hk]
      refine ⟨trivial, trivial, fun x h => h, ?_⟩
      rintro n' hn' hk'
      obtain rfl : n = n' := by injection hn'
      exact absurd hk' hk

theorem stageFold_no_success (g : RPG) (outcome : String → Option Bool)
    (hout : ∀ nid, outcome nid ≠ some true) :
    ∀ (order : List String) (acc : StageAcc),
      (order.foldl (stageStep g outcome) acc).generated = acc.generated ∧
      (order.foldl (stageStep g outcome) acc).successful = acc.successful ∧
      (∀ x ∈ acc.failed, x ∈ (order.foldl (stageStep g outcome) acc).failed) ∧
      ∀ nid ∈ order, ∀ n, g.get_node nid = some n →
        (n.kind == "function" || n.kind == "class") = true →
        n.path_hint ∈ (order.foldl (stageStep g outcome) acc).failed := by
  intro order
  induction order with
  | nil => intro acc; exact ⟨rfl, rfl, fun x h => h, by simp⟩
  | cons nid0 rest ih =>
    intro acc
    rw [List.foldl_cons]
    obtain ⟨s1, s2, s3, s4⟩ := stageStep_no_success g outcome hout acc nid0
    obtain ⟨i1, i2, i3, i4⟩ := ih (stageStep g outcome acc nid0)
    refine ⟨by rw [i1, s1], by rw [i2, s2], fun x hx => i3 x (s3 x hx), ?_⟩
    intro nid hnid n hn hk
    rcases List.mem_cons.mp hnid with rfl | hnid
    · exact i3 _ (s4 n hn hk)
    · exact i4 nid hnid n hn hk

/-! ### Lemmas about test-output parsing -/

theorem updateStats_fixed (parts : List (List Char)) (acc : Int × Int)
    (h : ∀ ip ∈ parts.enum,
      ¬(((ip.2 == "passed".data || ip.2 == "failed".data) && decide (0 < ip.1) &&
        (match parts.get? (ip.1 - 1) with
         | some prev => (pyInt? prev).isSome
         | none => false)) = true)) :
    updateStats parts acc = acc := by
  unfold updateStats
  apply foldl_fixed
  intro b ip hip
  have hi := h ip hip
  by_cases hp : (ip.2 == "passed".data && decide (0 < ip.1)) = true
  · rw [if_pos hp]
    obtain ⟨hpa, hpi⟩ := Bool.and_eq_true_iff.mp hp
    cases hg : parts.get? (ip.1 - 1) with
    | none => rfl
    | some prev =>
      show (match pyInt? prev with
            | some v => (v, b.2)
            | none => b) = b
      cases hv : pyInt? prev with
      | none => rfl
      | some v =>
        exact absurd (by rw [hg]; simp [hpa, hpi, hv]) hi
  · rw [if_neg hp]
    by_cases hf : (ip.2 == "failed".data && decide (0 < ip.1)) = true
    · rw [if_pos hf]
      obtain ⟨hfa, hfi⟩ := Bool.and_eq_true_iff.mp hf
      cases hg : parts.get? (ip.1 - 1) with
      | none => rfl
      | some prev =>
        show (match pyInt? prev with
              | some v => (b.1, v)
              | none => b) = b
        cases hv : pyInt? prev with
        | none => rfl
        | some v =>
          exact absurd (by rw [hg]; simp [hfa, hfi, hv]) hi
    · rw [if_neg hf]

theorem parse_zero_of_no_counts (output : String) (h : hasParsableCount output = false) :
    parseTestOutput output = { total := 0, passed := 0, failed := 0 } := by
  have h' : ¬ (hasParsableCount output = true) := by rw [h]; exact Bool.false_ne_true
  rw [hasParsableCount, List.any_eq_true] at h'
  push_neg at h'
  unfold parseTestOutput
  have hfold : (splitOnChar '\n' output.data).foldl
      (fun acc line =>
        if lineHasSummaryWord line then updateStats (splitWs line) acc else acc)
      ((0 : Int), (0 : Int)) = ((0 : Int), (0 : Int)) := by
    apply foldl_fixed
    intro b line hline
    by_cases hl : lineHasSummaryWord line = true
    · rw [if_pos hl]
      apply updateStats_fixed
      intro ip hip hcond
      have hln := h' line hline
      have hany : ¬ (((splitWs line).enum.any fun ip =>
          (ip.2 == "passed".data || ip.2 == "failed".data) && decide (0 < ip.1) &&
            match (splitWs line).get? (ip.1 - 1) with
            | some prev => (pyInt? prev).isSome
            | none => false) = true) := by
        intro hx
        exact hln (by rw [hl, hx]; rfl)
      rw [List.any_eq_true] at hany
      push_neg at hany
      exact hany ip hip hcond
    · rw [if_neg hl]
  rw [hfold]
  rfl

/-! ### Lemmas about bounded reachability and the neighborhood query -/

theorem reachWithin_zero {R : String → String → Prop} {x y : String}
    (h : ReachWithin R 0 x y) : x = y := by
  cases h; rfl

theorem reachWithin_succ_of {R : String → String → Prop} {n : Nat} {x y : String}
    (h : ReachWithin R n x y) : ReachWithin R (n + 1) x y := by
  induction h with
  | refl n x => exact ReachWithin.refl _ _
  | step h1 _ ih => exact ReachWithin.step h1 ih

theorem mem_expandOnce {edges : List (String × String)} {s : List String} {w : String} :
    w ∈ expandOnce edges s ↔ w ∈ s ∨ ∃ u ∈ s, (u, w) ∈ edges := by
  unfold expandOnce
  rw [List.mem_append]
  constructor
  · rintro (h | h)
    · exact Or.inl h
    · obtain ⟨e, he, rfl⟩ := List.mem_map.mp h
      obtain ⟨he', hc⟩ := List.mem_filter.mp he
      exact Or.inr ⟨e.1, (contains_iff_mem _ _).mp hc, he'⟩
  · rintro (h | ⟨u, hu, he⟩)
    · exact Or.inl h
    · refine Or.inr (List.mem_map.mpr ⟨(u, w), List.mem_filter.mpr ⟨he, ?_⟩, rfl⟩)
      exact (contains_iff_mem _ _).mpr hu

theorem mem_expandN (edges : List (String × String)) :
    ∀ (n : Nat) (s : List String) (w : String),
      w ∈ expandN edges n s ↔
        ∃ u ∈ s, ReachWithin (fun a b => (a, b) ∈ edges) n u w := by
  intro n
  induction n with
  | zero =>
    intro s w
    constructor
    · intro h; exact ⟨w, h, ReachWithin.refl 0 w⟩
    · rintro ⟨u, hu, h⟩; exact (reachWithin_zero h) ▸ hu
  | succ n ih =>
    intro s w
    rw [expandN, ih]
    constructor
    · rintro ⟨u, hu, h⟩
      rcases mem_expandOnce.mp hu with hu | ⟨u0, hu0, he⟩
      · exact ⟨u, hu, reachWithin_succ_of h⟩
      · exact ⟨u0, hu0, ReachWithin.step he h⟩
    · rintro ⟨u, hu, h⟩
      cases h with
      | refl => exact ⟨_, mem_expandOnce.mpr (Or.inl hu), ReachWithin.refl _ _⟩
      | step h1 h2 => exact ⟨_, mem_expandOnce.mpr (Or.inr ⟨_, hu, h1⟩), h2⟩

theorem get_node_isSome_iff (g : RPG) (w : String) :
    (g.get_node w).isSome = true ↔ ∃ n ∈ g.nodes, n.id = w := by
  rw [RPG.get_node, List.find?_isSome]
  constructor
  · rintro ⟨n, hn, hb⟩; exact ⟨n, hn, by simpa using hb⟩
  · rintro ⟨n, hn, hb⟩; exact ⟨n, hn, by simp [hb]⟩

theorem filterMap_get_length (l : List FeaturePath) :
    ∀ pick : List Nat, (∀ i ∈ pick, i < l.length) →
      (pick.filterMap (fun i => l.get? i)).length = pick.length := by
  intro pick
  induction pick with
  | nil => intro _; rfl
  | cons i is ih =>
    intro h
    have hi : i < l.length := h i (by simp)
    obtain ⟨a, ha⟩ : ∃ a, l.get? i = some a := by
      cases hg : l.get? i with
      | none => exact absurd (List.get?_eq_none.mp hg) (not_le.mpr hi)
      | some a => exact ⟨a, rfl⟩
    simp only [List.filterMap_cons, ha, List.length_cons]
    rw [ih (fun j hj => h j (by simp [hj]))]

/-! ### Claim C3 -/

/-- C3 (counterexample): with `max_retries = 0` and oracles that always
succeed, `_generate_node_code` performs zero sandbox runs and zero
implementation writes (the `for attempt in range(0)` body never runs)
and the node fails — not the single attempt the claim describes; run
through the codegen controller on a one-function RPG, that node is
processed yet never attempted, counted failed with its `path_hint` in
`failed_files` and nothing in `generated_files`. -/
theorem c3_counterexample_zero_retries :
    generateNodeCode exEnvAllTrue 0 =
      { success := false, sandboxRuns := 0, implWrites := 0, testWrites := 1 } ∧
    (generateNodeCode exEnvAllTrue 0).sandboxRuns ≠ 1 ∧
    (∃ r, generateRepository exRpgOneFun
        (fun _ => some ((generateNodeCode exEnvAllTrue 0).success)) exInteg = Except.ok r ∧
      r.successfulCount = 0 ∧ r.failedCount = 1 ∧
      r.generated_files = [] ∧ r.failed_files = [some "src/f.py"]) := by
  exact ⟨rfl, by decide, ⟨_, rfl, by decide, by decide, by decide, by decide⟩⟩

/-- C3 (amended): when `max_retries = 0`, the repair loop body never
executes — for every oracle the node's trace shows zero sandbox runs and
zero implementation writes and `success = false`; consequently, in the
stage loop every processed class/function node puts its `path_hint` into
`failed_files`, no node is counted successful, and `generated_files`
stays empty. -/
theorem c3_zero_retries_no_attempt_all_failed :
    (∀ env : NodeGenEnv,
      (generateNodeCode env 0).success = false ∧
      (generateNodeCode env 0).sandboxRuns = 0 ∧
      (generateNodeCode env 0).implWrites = 0) ∧
    ∀ (g : RPG) (envs : String → NodeGenEnv) (integ : IntegrationReport) (r : StageResult),
      generateRepository g (fun nid => some ((generateNodeCode (envs nid) 0).success)) integ
        = Except.ok r →
      r.successfulCount = 0 ∧ r.generated_files = [] ∧
      ∀ order, topological_sort g = some order → ∀ nid ∈ order, ∀ n,
        g.get_node nid = some n → (n.kind == "function" || n.kind == "class") = true →
        n.path_hint ∈ r.failed_files := by
  refine ⟨generateNodeCode_zero, ?_⟩
  intro g envs integ r h
  have hout : ∀ nid, (fun nid => some ((generateNodeCode (envs nid) 0).success)) nid
      ≠ some true := by
    intro nid hc
    have hc' : some ((generateNodeCode (envs nid) 0).success) = some true := hc
    rw [(generateNodeCode_zero (envs nid)).1] at hc'
    exact Bool.false_ne_true (by injection hc')
  unfold generateRepository at h
  cases hts : topological_sort g with
  | none => rw [hts] at h; exact absurd h (by simp)
  | some order =>
    rw [hts] at h
    obtain ⟨f1, f2, f3, f4⟩ :=
      stageFold_no_success g _ hout order ⟨[], [], 0, 0⟩
    injection h with h
    subst h
    refine ⟨f2, f1, ?_⟩
    intro order' horder' nid hnid n hn hk
    injection horder' with horder'
    subst horder'
    exact f4 nid hnid n hn hk

/-- C3 (witness): the amended statement instantiated on a one-node RPG
with always-succeeding oracles. -/
theorem c3_zero_retries_witness :
    ∃ r, generateRepository exRpgOneFun (fun _ => some ((generateNodeCode exEnvAllTrue 0).success))
        exInteg = Except.ok r ∧
      r.successfulCount = 0 ∧ r.generated_files = [] ∧
      some "src/f.py" ∈ r.failed_files := by
  obtain ⟨r, hr⟩ : ∃ r, generateRepository exRpgOneFun
      (fun _ => some ((generateNodeCode exEnvAllTrue 0).success)) exInteg = Except.ok r :=
    ⟨_, rfl⟩
  obtain ⟨h1, h2, h3⟩ :=
    (c3_zero_retries_no_attempt_all_failed).2 exRpgOneFun (fun _ => exEnvAllTrue) exInteg r hr
  refine ⟨r, hr, h1, h2, ?_⟩
  exact h3 ["f1"] rfl "f1" (List.mem_singleton.mpr rfl)
    { id := "f1", name := "f", kind := "function", path_hint := some "src/f.py" } rfl rfl

/-! ### Claim C7 -/

/-- C7: for every sandbox run the parsed statistics satisfy
`total = passed + failed`; and when the merged output contains no
parsable `<N> passed` / `<N> failed` count, the completed-process result
reports `total = 0` while `success` is still exactly `exit code = 0`. -/
theorem c7_parse_totals_and_exit_code (output : String) (exit_code : Int) :
    (parseTestOutput output).total =
      (parseTestOutput output).passed + (parseTestOutput output).failed ∧
    (hasParsableCount output = false →
      (runAllTestsCompleted exit_code output).stats.total = 0 ∧
      ((runAllTestsCompleted exit_code output).success = true ↔ exit_code = 0)) := by
  refine ⟨rfl, fun h => ?_⟩
  constructor
  · show (parseTestOutput output).total = 0
    rw [parse_zero_of_no_counts output h]
  · show (decide (exit_code = 0)) = true ↔ exit_code = 0
    exact decide_eq_true_iff

/-- C7 (witness): instantiation on an output whose only `passed` token
has an unparsable predecessor, with exit code 0. -/
theorem c7_parse_totals_witness :
    (parseTestOutput "no tests passed here").total =
      (parseTestOutput "no tests passed here").passed +
        (parseTestOutput "no tests passed here").failed ∧
    ((runAllTestsCompleted 0 "no tests passed here").stats.total = 0 ∧
      ((runAllTestsCompleted 0 "no tests passed here").success = true ↔ (0 : Int) = 0)) :=
  ⟨(c7_parse_totals_and_exit_code "no tests passed here" 0).1,
   (c7_parse_totals_and_exit_code "no tests passed here" 0).2 (by decide)⟩

/-! ### Claim C8 -/

/-- C8 (counterexample): with one stored `ontology` feature and `k = 1`,
the pool is not larger than `k`, and the feature is returned with its
original `source`/`score` — not retagged `explore`/0.6 as the claim
requires of every returned feature. -/
theorem c8_counterexample_small_pool_untagged :
    sampleDiverseFeatures exStoreOne [] 1 none [] = exStoreOne ∧
    ∃ fp ∈ sampleDiverseFeatures exStoreOne [] 1 none [], fp.source ≠ "explore" := by
  refine ⟨rfl, ⟨{ path := "a", score := 1, source := "ontology" }, ?_, by decide⟩⟩
  rw [show sampleDiverseFeatures exStoreOne [] 1 none [] = exStoreOne from rfl]
  exact List.mem_singleton.mpr rfl

/-- C8 (amended): with an empty store the sample is empty; when at most
`k` features survive exclusion and the domain filter they are all
returned unchanged; when more than `k` survive, a valid
without-replacement draw returns exactly `k` features, each a surviving
feature retagged `source = explore`, `score = 0.6`. -/
theorem c8_sample_characterization (store : List FeaturePath) (exclude : List String)
    (k : Nat) (domainFilter : Option String) (pick : List Nat) :
    (store = [] → sampleDiverseFeatures store exclude k domainFilter pick = []) ∧
    (store ≠ [] →
      (availableFeatures store exclude domainFilter).length ≤ k →
      sampleDiverseFeatures store exclude k domainFilter pick =
        availableFeatures store exclude domainFilter) ∧
    (store ≠ [] →
      k < (availableFeatures store exclude domainFilter).length →
      pick.length = k →
      (∀ i ∈ pick, i < (availableFeatures store exclude domainFilter).length) →
      pick.Nodup →
      (sampleDiverseFeatures store exclude k domainFilter pick).length = k ∧
      ∀ fp ∈ sampleDiverseFeatures store exclude k domainFilter pick,
        fp.source = "explore" ∧ fp.score = (3 : ℚ)/5 ∧
        ∃ orig ∈ availableFeatures store exclude domainFilter,
          fp = { orig with source := "explore", score := (3 : ℚ)/5 }) := by
  refine ⟨?_, ?_, ?_⟩
  · intro h; subst h; rfl
  · intro hne hle
    have hlen : ¬ store.length = 0 := fun hc => hne (List.length_eq_zero.mp hc)
    unfold sampleDiverseFeatures
    rw [if_neg hlen, if_pos hle]
  · intro hne hlt hlenp hbound hnd
    have hlen : ¬ store.length = 0 := fun hc => hne (List.length_eq_zero.mp hc)
    have hnle : ¬ (availableFeatures store exclude domainFilter).length ≤ k :=
      not_le.mpr hlt
    have hout : sampleDiverseFeatures store exclude k domainFilter pick =
        (pick.filterMap (fun i => (availableFeatures store exclude domainFilter).get? i)).map
          (fun fp => { fp with source := "explore", score := (3 : ℚ)/5 }) := by
      unfold sampleDiverseFeatures
      rw [if_neg hlen, if_neg hnle]
    rw [hout]
    constructor
    · rw [List.length_map, filterMap_get_length _ pick hbound, hlenp]
    · intro fp hfp
      obtain ⟨orig, horig, rfl⟩ := List.mem_map.mp hfp
      obtain ⟨i, _, hget⟩ := List.mem_filterMap.mp horig
      exact ⟨rfl, rfl, orig, List.get?_mem hget, rfl⟩

/-- C8 (witness): the large-pool branch of the amended statement on a
two-feature store with `k = 1` and the draw picking position 0. -/
theorem c8_sample_witness :
    (sampleDiverseFeatures exStoreTwo [] 1 none [0]).length = 1 ∧
    ∀ fp ∈ sampleDiverseFeatures exStoreTwo [] 1 none [0],
      fp.source = "explore" ∧ fp.score = (3 : ℚ)/5 ∧
      ∃ orig ∈ availableFeatures exStoreTwo [] none,
        fp = { orig with source := "explore", score := (3 : ℚ)/5 } :=
  (c8_sample_characterization exStoreTwo [] 1 none [0]).2.2 (by decide) (by decide) rfl
    (by decide) (by decide)

/-! ### Claim C5 -/

/-- C5 (counterexample): on the RPG with the single `data_flow` edge
`a → b`, the spec's undirected neighborhood of `b` at radius 1 contains
`a`, but `get_neighborhood` (a directed `ego_graph`) does not return
`a`. -/
theorem c5_counterexample_directed_not_undirected :
    "a" ∈ specNeighborhood exRpgEdgeAB "b" 1 ∧
    "a" ∉ get_neighborhood exRpgEdgeAB "b" 1 := by
  decide

/-- C5 (amended): `get_neighborhood g v r` returns exactly the ids `w`
that resolve to RPG nodes and are reachable from `v` in at most `r`
steps along the direction of the `data_flow`/`order` edges, provided `v`
occurs in the built graph (otherwise the result is empty). -/
theorem c5_neighborhood_directed_reachability (g : RPG) (v : String) (r : Nat) (w : String) :
    w ∈ get_neighborhood g v r ↔
      (v ∈ gNodeIds g ∧ (∃ n ∈ g.nodes, n.id = w) ∧
        ReachWithin (fun a b => (a, b) ∈ dfOrderPairs g) r v w) := by
  unfold get_neighborhood
  by_cases hv : (gNodeIds g).contains v = true
  · rw [if_pos hv, List.mem_filter, mem_expandN]
    constructor
    · rintro ⟨⟨u, hu, h⟩, hsome⟩
      obtain rfl : u = v := by simpa using hu
      exact ⟨(contains_iff_mem _ _).mp hv, (get_node_isSome_iff g w).mp hsome, h⟩
    · rintro ⟨_, hsome, h⟩
      exact ⟨⟨v, by simp, h⟩, (get_node_isSome_iff g w).mpr hsome⟩
  · rw [if_neg hv]
    simp only [List.not_mem_nil, false_iff]
    rintro ⟨hvmem, _, _⟩
    exact hv ((contains_iff_mem _ _).mpr hvmem)

/-! ### Claim C2: substring and segment lemmas -/

theorem isPrefixL_append_slash {needle : List Char} (h : '/' ∉ needle) :
    ∀ (a b : List Char), isPrefixL needle (a ++ '/' :: b) = isPrefixL needle a := by
  induction needle with
  | nil => intro a b; rfl
  | cons n ns ih =>
    intro a b
    cases a with
    | nil =>
      have hn : ¬ (n = '/') := fun hc => h (hc ▸ List.mem_cons_self n ns)
      simp [isPrefixL, hn]
    | cons x xs =>
      show (decide (n = x) && isPrefixL ns (xs ++ '/' :: b))
        = (decide (n = x) && isPrefixL ns xs)
      rw [ih (fun hc => h (List.mem_cons_of_mem _ hc)) xs b]

theorem splitOnChar_ne_nil (sep : Char) : ∀ cs : List Char, splitOnChar sep cs ≠ [] := by
  intro cs
  induction cs with
  | nil => simp [splitOnChar]
  | cons c cs ih =>
    by_cases hc : c = sep
    · simp [splitOnChar, hc]
    · rw [splitOnChar, if_neg hc]
      cases h : splitOnChar sep cs with
      | nil => exact absurd h ih
      | cons s rest => simp

theorem splitSlash_cons (cs : List Char) : ∃ s rest, splitSlash cs = s :: rest := by
  cases h : splitSlash cs with
  | nil => exact absurd h (splitOnChar_ne_nil '/' cs)
  | cons s rest => exact ⟨s, rest, rfl⟩

theorem splitSlash_decomp :
    ∀ (cs s : List Char) (rest : List (List Char)), splitSlash cs = s :: rest →
      (rest = [] ∧ cs = s) ∨
      ∃ cs', cs = s ++ '/' :: cs' ∧ splitSlash cs' = rest := by
  intro cs
  induction cs with
  | nil =>
    intro s rest h
    have h' : ([[]] : List (List Char)) = s :: rest := h
    injection h' with h1 h2
    exact Or.inl ⟨h2.symm, h1⟩
  | cons c cs ih =>
    intro s rest h
    by_cases hc : c = '/'
    · subst hc
      have h' : ([] : List Char) :: splitSlash cs = s :: rest := h
      injection h' with h1 h2
      subst h1
      exact Or.inr ⟨cs, rfl, h2⟩
    · obtain ⟨s0, rest0, h0⟩ := splitSlash_cons cs
      have h' : (c :: s0) :: rest0 = s :: rest := by
        rw [← h]
        show _ = splitOnChar '/' (c :: cs)
        rw [splitOnChar, if_neg hc]
        have h0' : splitOnChar '/' cs = s0 :: rest0 := h0
        rw [h0']
      injection h' with h1 h2
      subst h1
      subst h2
      rcases ih s0 rest0 h0 with ⟨hr, hcs⟩ | ⟨cs', hcs, hsp⟩
      · exact Or.inl ⟨hr, by rw [hcs]⟩
      · exact Or.inr ⟨cs', by rw [hcs]; rfl, hsp⟩

theorem containsSub_nil_of_ne {needle : List Char} (hne : needle ≠ []) :
    containsSub needle [] = false := by
  cases needle with
  | nil => exact absurd rfl hne
  | cons n ns => rfl

theorem isPrefixL_slash_head {needle : List Char} (hne : needle ≠ []) (hns : '/' ∉ needle)
    (cs : List Char) : isPrefixL needle ('/' :: cs) = false := by
  cases needle with
  | nil => exact absurd rfl hne
  | cons n ns =>
    have hn : ¬ (n = '/') := fun hc => hns (hc ▸ List.mem_cons_self n ns)
    simp [isPrefixL, hn]

theorem containsSub_split {needle : List Char} (hne : needle ≠ []) (hns : '/' ∉ needle) :
    ∀ hay : List Char,
      containsSub needle hay = (splitSlash hay).any (fun seg => containsSub needle seg) := by
  intro hay
  induction hay with
  | nil =>
    show containsSub needle [] = List.any [[]] (fun seg => containsSub needle seg)
    rw [containsSub_nil_of_ne hne]
    simp [containsSub_nil_of_ne hne]
  | cons c cs ih =>
    by_cases hc : c = '/'
    · subst hc
      have hsplit : splitSlash ('/' :: cs) = [] :: splitSlash cs := by
        show splitOnChar '/' ('/' :: cs) = _
        rw [splitOnChar, if_pos rfl]
        rfl
      rw [hsplit]
      show (isPrefixL needle ('/' :: cs) || containsSub needle cs) = _
      rw [isPrefixL_slash_head hne hns cs]
      simp only [List.any_cons, containsSub_nil_of_ne hne, Bool.false_or]
      exact ih
    · obtain ⟨s0, rest0, h0⟩ := splitSlash_cons cs
      have hsplit : splitSlash (c :: cs) = (c :: s0) :: rest0 := by
        show splitOnChar '/' (c :: cs) = _
        rw [splitOnChar, if_neg hc]
        have h0' : splitOnChar '/' cs = s0 :: rest0 := h0
        rw [h0']
      rw [hsplit]
      have hpre : isPrefixL needle (c :: cs) = isPrefixL needle (c :: s0) := by
        rcases splitSlash_decomp cs s0 rest0 h0 with ⟨_, hcs⟩ | ⟨cs', hcs, _⟩
        · rw [hcs]
        · rw [hcs]
          show isPrefixL needle ((c :: s0) ++ '/' :: cs') = _
          exact isPrefixL_append_slash hns (c :: s0) cs'
      show (isPrefixL needle (c :: cs) || containsSub needle cs) = _
      rw [hpre, ih, h0]
      simp only [List.any_cons]
      show _ = ((isPrefixL needle (c :: s0) || containsSub needle s0) || rest0.any _)
      rw [Bool.or_assoc]

theorem genericPatterns_wf :
    ∀ w ∈ genericPatterns, w.data ≠ [] ∧ '/' ∉ w.data := by
  decide

theorem genericSeg_iff (path : String) :
    isGenericInfrastructure path = true ↔
      ∃ seg ∈ splitSlash (pyLower path), ∃ w ∈ genericPatterns,
        containsSub w.data seg = true := by
  unfold isGenericInfrastructure
  rw [List.any_eq_true]
  constructor
  · rintro ⟨w, hw, hcs⟩
    obtain ⟨hne, hns⟩ := genericPatterns_wf w hw
    rw [containsSub_split hne hns (pyLower path), List.any_eq_true] at hcs
    obtain ⟨seg, hseg, hc⟩ := hcs
    exact ⟨seg, hseg, w, hw, hc⟩
  · rintro ⟨seg, hseg, w, hw, hc⟩
    obtain ⟨hne, hns⟩ := genericPatterns_wf w hw
    refine ⟨w, hw, ?_⟩
    rw [containsSub_split hne hns (pyLower path), List.any_eq_true]
    exact ⟨seg, hseg, hc⟩

theorem segFinset_card_pos (p : String) : 0 < (segFinset p).card := by
  obtain ⟨s, rest, h⟩ := splitSlash_cons p.data
  refine Finset.card_pos.mpr ⟨s, ?_⟩
  unfold segFinset
  rw [h]
  simp

theorem tooSimilar_false_iff (selected : List String) (p : String) :
    isTooSimilarTo selected p = false ↔
      ∀ q ∈ selected,
        5 * (segFinset p ∩ segFinset q).card ≤ 4 * (segFinset p ∪ segFinset q).card := by
  rw [← Bool.not_eq_true]
  unfold isTooSimilarTo
  rw [List.any_eq_true]
  push_neg
  constructor
  · intro h q hq
    have hn := h q hq
    simp at hn
    have hu : 0 < (segFinset p ∪ segFinset q).card :=
      lt_of_lt_of_le (segFinset_card_pos p)
        (Finset.card_le_card (Finset.subset_union_left))
    exact hn (Finset.card_pos.mp hu)
  · intro h q hq
    simp
    intro _
    exact h q hq

theorem acceptOne_true_iff (st : PropState) (fp : FeaturePath) :
    (acceptOne st fp).2 = true ↔
      (fp.path ∉ st.selected ∧ fp.path ∉ st.rejected ∧
       isGenericInfrastructure fp.path = false ∧
       ¬ (fp.score < (1 : ℚ)/5) ∧ isTooSimilarTo st.selected fp.path = false) := by
  unfold acceptOne
  by_cases h1 : (st.selected.contains fp.path || st.rejected.contains fp.path) = true
  · rw [if_pos h1]
    simp only [Bool.false_eq_true, false_iff]
    rintro ⟨ha, hb, -⟩
    rcases Bool.or_eq_true_iff.mp h1 with h | h
    · exact ha ((contains_iff_mem _ _).mp h)
    · exact hb ((contains_iff_mem _ _).mp h)
  · rw [if_neg h1]
    have hsel : fp.path ∉ st.selected := fun hc =>
      h1 (Bool.or_eq_true_iff.mpr (Or.inl ((contains_iff_mem _ _).mpr hc)))
    have hrej : fp.path ∉ st.rejected := fun hc =>
      h1 (Bool.or_eq_true_iff.mpr (Or.inr ((contains_iff_mem _ _).mpr hc)))
    by_cases h2 : isGenericInfrastructure fp.path = true
    · rw [if_pos h2]
      simp only [Bool.false_eq_true, false_iff]
      rintro ⟨-, -, hg, -⟩
      rw [hg] at h2
      exact Bool.false_ne_true h2
    · rw [if_neg h2]
      by_cases h3 : fp.score < (1 : ℚ)/5
      · rw [if_pos h3]
        simp only [Bool.false_eq_true, false_iff]
        rintro ⟨-, -, -, hs, -⟩
        exact hs h3
      · rw [if_neg h3]
        by_cases h4 : isTooSimilarTo st.selected fp.path = true
        · rw [if_pos h4]
          simp only [Bool.false_eq_true, false_iff]
          rintro ⟨-, -, -, -, ht⟩
          rw [ht] at h4
          exact Bool.false_ne_true h4
        · rw [if_neg h4]
          simp only [true_iff]
          exact ⟨hsel, hrej, Bool.not_eq_true _ ▸ h2, h3, Bool.not_eq_true _ ▸ h4⟩

theorem acceptOne_state (st : PropState) (fp : FeaturePath) :
    ((acceptOne st fp).2 = true → (acceptOne st fp).1.selected = fp.path :: st.selected) ∧
    ((acceptOne st fp).2 = false → (acceptOne st fp).1.selected = st.selected) := by
  unfold acceptOne
  split_ifs <;> simp

theorem jac_swap {x y : String}
    (h : 5 * (segFinset x ∩ segFinset y).card ≤ 4 * (segFinset x ∪ segFinset y).card) :
    5 * (segFinset y ∩ segFinset x).card ≤ 4 * (segFinset y ∪ segFinset x).card := by
  rwa [Finset.inter_comm, Finset.union_comm]

theorem generic_false_iff (path : String) :
    isGenericInfrastructure path = false ↔
      ∀ seg ∈ splitSlash (pyLower path), ∀ w ∈ genericPatterns,
        containsSub w.data seg = false := by
  rw [← Bool.not_eq_true, genericSeg_iff]
  push_neg
  simp only [ne_eq, Bool.not_eq_true]

theorem acceptFeatures_sound :
    ∀ (cands : List FeaturePath) (st : PropState),
      (∀ fp ∈ (acceptFeatures st cands).2,
        isGenericInfrastructure fp.path = false ∧
        ∀ q ∈ st.selected,
          5 * (segFinset fp.path ∩ segFinset q).card ≤
            4 * (segFinset fp.path ∪ segFinset q).card) ∧
      (acceptFeatures st cands).2.Pairwise (fun a b =>
        5 * (segFinset b.path ∩ segFinset a.path).card ≤
          4 * (segFinset b.path ∪ segFinset a.path).card) := by
  intro cands
  induction cands with
  | nil => intro st; exact ⟨by simp [acceptFeatures], by simp [acceptFeatures]⟩
  | cons fp rest ih =>
    intro st
    cases hb : (acceptOne st fp).2 with
    | false =>
      have hsel := (acceptOne_state st fp).2 hb
      have hacc : (acceptFeatures st (fp :: rest)).2 =
          (acceptFeatures (acceptOne st fp).1 rest).2 := by
        simp [acceptFeatures, hb]
      obtain ⟨ih1, ih2⟩ := ih (acceptOne st fp).1
      rw [hacc]
      constructor
      · intro fp' hfp'
        obtain ⟨hg, hj⟩ := ih1 fp' hfp'
        exact ⟨hg, fun q hq => hj q (by rw [hsel]; exact hq)⟩
      · exact ih2
    | true =>
      have hsel := (acceptOne_state st fp).1 hb
      have hiff := (acceptOne_true_iff st fp).mp hb
      have hacc : (acceptFeatures st (fp :: rest)).2 =
          fp :: (acceptFeatures (acceptOne st fp).1 rest).2 := by
        simp [acceptFeatures, hb]
      obtain ⟨ih1, ih2⟩ := ih (acceptOne st fp).1
      rw [hacc]
      have hjall := (tooSimilar_false_iff st.selected fp.path).mp hiff.2.2.2.2
      constructor
      · intro fp' hfp'
        rcases List.mem_cons.mp hfp' with rfl | hfp'
        · exact ⟨hiff.2.2.1, hjall⟩
        · obtain ⟨hg, hj⟩ := ih1 fp' hfp'
          exact ⟨hg, fun q hq => hj q (by rw [hsel]; exact List.mem_cons_of_mem _ hq)⟩
      · refine List.pairwise_cons.mpr ⟨?_, ih2⟩
        intro b hb'
        obtain ⟨-, hj⟩ := ih1 b hb'
        exact hj fp.path (by rw [hsel]; exact List.mem_cons_self _ _)

/-! ### Claim C2: main theorem -/

/-- C2: the acceptance gate of `_accept_features` admits a candidate
exactly when it is new (neither selected nor rejected), scores at least
0.2, no segment of its lowercased path contains a blocklist word, and
its Jaccard segment overlap with every already selected path is at most
0.8; consequently every accepted feature is blocklist-clean and has
Jaccard overlap at most 0.8 with the prior selection and with every
other accepted feature of the batch. -/
theorem c2_acceptance_filter_characterization :
    (∀ (st : PropState) (fp : FeaturePath),
      (acceptOne st fp).2 = true ↔
        (fp.path ∉ st.selected ∧ fp.path ∉ st.rejected ∧
         (1 : ℚ)/5 ≤ fp.score ∧
         (∀ seg ∈ splitSlash (pyLower fp.path), ∀ w ∈ genericPatterns,
            containsSub w.data seg = false) ∧
         ∀ q ∈ st.selected,
           5 * (segFinset fp.path ∩ segFinset q).card ≤
             4 * (segFinset fp.path ∪ segFinset q).card)) ∧
    (∀ (st : PropState) (cands : List FeaturePath),
      (∀ fp ∈ (acceptFeatures st cands).2,
        (∀ seg ∈ splitSlash (pyLower fp.path), ∀ w ∈ genericPatterns,
           containsSub w.data seg = false) ∧
        ∀ q ∈ st.selected,
          5 * (segFinset fp.path ∩ segFinset q).card ≤
            4 * (segFinset fp.path ∪ segFinset q).card) ∧
      (acceptFeatures st cands).2.Pairwise (fun a b =>
        5 * (segFinset a.path ∩ segFinset b.path).card ≤
          4 * (segFinset a.path ∪ segFinset b.path).card)) := by
  constructor
  · intro st fp
    rw [acceptOne_true_iff]
    constructor
    · rintro ⟨h1, h2, h3, h4, h5⟩
      exact ⟨h1, h2, not_lt.mp h4, (generic_false_iff fp.path).mp h3,
        (tooSimilar_false_iff st.selected fp.path).mp h5⟩
    · rintro ⟨h1, h2, h3, h4, h5⟩
      exact ⟨h1, h2, (generic_false_iff fp.path).mpr h4, not_lt.mpr h3,
        (tooSimilar_false_iff st.selected fp.path).mpr h5⟩
  · intro st cands
    obtain ⟨h1, h2⟩ := acceptFeatures_sound cands st
    constructor
    · intro fp hfp
      obtain ⟨hg, hj⟩ := h1 fp hfp
      exact ⟨(generic_false_iff fp.path).mp hg, hj⟩
    · exact h2.imp (fun h => jac_swap h)

/-! ### Kahn peeling: soundness lemmas for `topological_sort` and the
cycle check of `validate_dag` -/

theorem ready_iff (edges : List (String × String)) (done : List String) (v : String) :
    ready edges done v = true ↔ ∀ e ∈ edges, e.2 = v → e.1 ∈ done := by
  unfold ready
  rw [List.all_eq_true]
  constructor
  · intro h e he hev
    have h2 := h e he
    rw [Bool.or_eq_true_iff] at h2
    rcases h2 with h1 | h1
    · rw [Bool.not_eq_true'] at h1
      have hb : (e.2 == v) = true := beq_iff_eq.mpr hev
      rw [h1] at hb
      exact absurd hb Bool.false_ne_true
    · exact (contains_iff_mem _ _).mp h1
  · intro h e he
    rw [Bool.or_eq_true_iff]
    by_cases hev : e.2 = v
    · exact Or.inr ((contains_iff_mem _ _).mpr (h e he hev))
    · exact Or.inl (by simp [hev])

theorem exists_source (edges : List (String × String)) (pend : List String)
    (hne : pend ≠ [])
    (hacyc : ∀ v, ¬ Relation.TransGen (fun a b => (a, b) ∈ edges) v v) :
    ∃ v ∈ pend, ∀ u, (u, v) ∈ edges → u ∉ pend := by
  haveI hT : IsTrans String (fun a b => Relation.TransGen (fun a b => (a, b) ∈ edges) a b) :=
    ⟨fun _ _ _ hab hbc => Relation.TransGen.trans hab hbc⟩
  haveI hI : IsIrrefl String (fun a b => Relation.TransGen (fun a b => (a, b) ∈ edges) a b) :=
    ⟨hacyc⟩
  haveI hS : IsStrictOrder String
      (fun a b => Relation.TransGen (fun a b => (a, b) ∈ edges) a b) := ⟨⟩
  have hfin : {x | x ∈ pend}.Finite := List.finite_toSet pend
  have hwf : {x | x ∈ pend}.WellFoundedOn
      (fun a b => Relation.TransGen (fun a b => (a, b) ∈ edges) a b) :=
    hfin.wellFoundedOn
  obtain ⟨p0, hp0⟩ := List.exists_mem_of_ne_nil pend hne
  obtain ⟨⟨m, hm⟩, -, hmin⟩ := hwf.has_min Set.univ ⟨⟨p0, hp0⟩, trivial⟩
  refine ⟨m, hm, ?_⟩
  intro u hu hupend
  exact hmin ⟨u, hupend⟩ trivial (Relation.TransGen.single hu)

theorem peel_sound (edges : List (String × String)) :
    ∀ (fuel : Nat) (pending done : List String),
      (done ++ pending).Nodup →
      (∀ e ∈ edges, e.1 ∈ done ∨ e.1 ∈ pending) →
      (∀ v, ¬ Relation.TransGen (fun a b => (a, b) ∈ edges) v v) →
      pending.length ≤ fuel →
      ∃ out, peel edges fuel done pending = some out ∧ List.Perm out pending ∧
        ∀ u v, (u, v) ∈ edges → u ∈ pending → v ∈ pending →
          List.indexOf u out < List.indexOf v out := by
  intro fuel
  induction fuel with
  | zero =>
    intro pending done _ _ _ hlen
    have hp : pending = [] := List.eq_nil_of_length_eq_zero (Nat.le_zero.mp hlen)
    subst hp
    exact ⟨[], rfl, List.Perm.refl _, fun u v _ hu _ => absurd hu (List.not_mem_nil u)⟩
  | succ k ih =>
    intro pending done hnd hcov hacyc hlen
    cases pending with
    | nil =>
      exact ⟨[], rfl, List.Perm.refl _, fun u v _ hu _ => absurd hu (List.not_mem_nil u)⟩
    | cons p ps =>
      have hpermfilter :
          List.Perm ((p :: ps).filter (ready edges done) ++
            (p :: ps).filter (fun v => !ready edges done v)) (p :: ps) :=
        List.filter_append_perm _ _
      -- the filter of ready nodes is nonempty
      obtain ⟨v0, hv0mem, hv0src⟩ :=
        exists_source edges (p :: ps) (by simp) hacyc
      have hv0ready : ready edges done v0 = true := by
        rw [ready_iff]
        rintro ⟨e1, e2⟩ he hev
        have he' : (e1, v0) ∈ edges := by rw [← hev]; exact he
        rcases hcov (e1, e2) he with h | h
        · exact h
        · exact absurd h (hv0src e1 he')
      have hlyrne : (p :: ps).filter (ready edges done) ≠ [] := by
        intro hc
        have : v0 ∈ (p :: ps).filter (ready edges done) :=
          List.mem_filter.mpr ⟨hv0mem, hv0ready⟩
        rw [hc] at this
        exact List.not_mem_nil v0 this
      have hlyrE : ((p :: ps).filter (ready edges done)).isEmpty = false := by
        cases hc : (p :: ps).filter (ready edges done) with
        | nil => exact absurd hc hlyrne
        | cons a l => rfl
      -- invariants for the recursive call
      have hndR : ((done ++ (p :: ps).filter (ready edges done)) ++
          (p :: ps).filter (fun v => !ready edges done v)).Nodup := by
        rw [List.append_assoc]
        exact ((hpermfilter.append_left done).symm).nodup hnd
      have hcovR : ∀ e ∈ edges,
          e.1 ∈ done ++ (p :: ps).filter (ready edges done) ∨
          e.1 ∈ (p :: ps).filter (fun v => !ready edges done v) := by
        intro e he
        rcases hcov e he with h | h
        · exact Or.inl (List.mem_append_left _ h)
        · cases hr : ready edges done e.1 with
          | true => exact Or.inl (List.mem_append_right _ (List.mem_filter.mpr ⟨h, hr⟩))
          | false => exact Or.inr (List.mem_filter.mpr ⟨h, by rw [hr]; rfl⟩)
      have hlenR : ((p :: ps).filter (fun v => !ready edges done v)).length ≤ k := by
        have h1 := hpermfilter.length_eq
        rw [List.length_append] at h1
        have h2 : 1 ≤ ((p :: ps).filter (ready edges done)).length := by
          cases hc : (p :: ps).filter (ready edges done) with
          | nil => exact absurd hc hlyrne
          | cons a l => simp
        have h3 : (p :: ps).length ≤ k + 1 := hlen
        omega
      obtain ⟨out2, hpeel2, hperm2, hprec2⟩ :=
        ih ((p :: ps).filter (fun v => !ready edges done v))
          (done ++ (p :: ps).filter (ready edges done)) hndR hcovR hacyc hlenR
      -- the one-step equation
      have hstep : peel edges (k + 1) done (p :: ps) =
          some ((p :: ps).filter (ready edges done) ++ out2) := by
        show (if ((p :: ps).filter (ready edges done)).isEmpty then none
              else
                match peel edges k (done ++ (p :: ps).filter (ready edges done))
                    ((p :: ps).filter (fun v => !ready edges done v)) with
                | some out => some ((p :: ps).filter (ready edges done) ++ out)
                | none => none) =
          some ((p :: ps).filter (ready edges done) ++ out2)
        rw [hlyrE]
        show (match peel edges k (done ++ (p :: ps).filter (ready edges done))
                ((p :: ps).filter (fun v => !ready edges done v)) with
              | some out => some ((p :: ps).filter (ready edges done) ++ out)
              | none => none) = _
        rw [hpeel2]
      refine ⟨(p :: ps).filter (ready edges done) ++ out2, hstep, ?_, ?_⟩
      · exact ((hperm2.append_left _).trans hpermfilter)
      · -- edge precedence
        intro u v huv hu hv
        have hdisj : ∀ x, x ∈ done → x ∈ p :: ps → False := by
          intro x h1 h2
          rw [List.nodup_append] at hnd
          exact hnd.2.2 h1 h2
        have hvlyr : v ∈ (p :: ps).filter (ready edges done) → False := by
          intro hvl
          have hrv := (List.mem_filter.mp hvl).2
          rw [ready_iff] at hrv
          exact hdisj u (hrv (u, v) huv rfl) hu
        have hvrest : v ∈ (p :: ps).filter (fun x => !ready edges done x) := by
          rcases List.mem_append.mp (hpermfilter.mem_iff.mpr hv) with h | h
          · exact absurd h hvlyr
          · exact h
        have hvnotlyr : v ∉ (p :: ps).filter (ready edges done) := hvlyr
        have hidxv : List.indexOf v ((p :: ps).filter (ready edges done) ++ out2) =
            ((p :: ps).filter (ready edges done)).length + List.indexOf v out2 :=
          List.indexOf_append_of_not_mem hvnotlyr
        cases hul : ready edges done u with
        | true =>
          have hulyr : u ∈ (p :: ps).filter (ready edges done) :=
            List.mem_filter.mpr ⟨hu, hul⟩
          have hidxu : List.indexOf u ((p :: ps).filter (ready edges done) ++ out2) =
              List.indexOf u ((p :: ps).filter (ready edges done)) :=
            List.indexOf_append_of_mem hulyr
          rw [hidxu, hidxv]
          exact lt_of_lt_of_le (List.indexOf_lt_length.mpr hulyr) (Nat.le_add_right _ _)
        | false =>
          have hurest : u ∈ (p :: ps).filter (fun x => !ready edges done x) :=
            List.mem_filter.mpr ⟨hu, by rw [hul]; rfl⟩
          have hunotlyr : u ∉ (p :: ps).filter (ready edges done) := by
            intro hc
            have := (List.mem_filter.mp hc).2
            rw [hul] at this
            exact Bool.false_ne_true this
          have hidxu : List.indexOf u ((p :: ps).filter (ready edges done) ++ out2) =
              ((p :: ps).filter (ready edges done)).length + List.indexOf u out2 :=
            List.indexOf_append_of_not_mem hunotlyr
          rw [hidxu, hidxv]
          exact Nat.add_lt_add_left (hprec2 u v huv hurest hvrest) _

theorem peel_no_edges : ∀ (fuel : Nat) (done pending : List String),
    pending.length ≤ fuel →
    peel [] fuel done pending = some pending := by
  intro fuel
  induction fuel with
  | zero =>
    intro done pending hlen
    have hp : pending = [] := List.eq_nil_of_length_eq_zero (Nat.le_zero.mp hlen)
    subst hp
    rfl
  | succ k ih =>
    intro done pending hlen
    cases pending with
    | nil => rfl
    | cons p ps =>
      have hfilter1 : (p :: ps).filter (ready [] done) = p :: ps :=
        List.filter_eq_self.mpr (fun a _ => rfl)
      have hfilter2 : (p :: ps).filter (fun v => !ready [] done v) = [] := by
        cases hc : (p :: ps).filter (fun v => !ready ([] : List (String × String)) done v) with
        | nil => rfl
        | cons a l =>
          exfalso
          have ha : a ∈ (p :: ps).filter (fun v => !ready ([] : List (String × String)) done v) := by
            rw [hc]; simp
          have := (List.mem_filter.mp ha).2
          exact Bool.false_ne_true this
      have hstep : peel [] (k + 1) done (p :: ps) = some ((p :: ps) ++ []) := by
        show (if ((p :: ps).filter (ready [] done)).isEmpty then none
              else
                match peel ([] : List (String × String)) k
                    (done ++ (p :: ps).filter (ready [] done))
                    ((p :: ps).filter (fun v => !ready [] done v)) with
                | some out => some ((p :: ps).filter (ready [] done) ++ out)
                | none => none) = some ((p :: ps) ++ [])
        rw [hfilter1, hfilter2]
        show (match peel ([] : List (String × String)) k (done ++ (p :: ps)) [] with
              | some out => some ((p :: ps) ++ out)
              | none => none) = some ((p :: ps) ++ [])
        rw [show peel ([] : List (String × String)) k (done ++ (p :: ps)) [] = some [] from
          ih (done ++ (p :: ps)) [] (Nat.zero_le k)]
      rw [hstep, List.append_nil]

/-! ### Claim C1 -/

/-- C1: for every RPG whose `data_flow`/`order` subgraph is acyclic (and
whose leaf ids are unique, per the RPG id-uniqueness invariant),
`topological_sort` succeeds and returns exactly the ids of the
class/function nodes — a permutation of them — and every
`data_flow`/`order` edge with both endpoints among those ids goes from
an earlier to a later position of the returned order. -/
theorem c1_topological_sort_exact_and_ordered (g : RPG)
    (hnodup : (leafIds g).Nodup)
    (hacyc : ∀ v, ¬ Relation.TransGen (dfOrderRel g) v v) :
    ∃ out, topological_sort g = some out ∧ List.Perm out (leafIds g) ∧
      ∀ e ∈ g.edges, (e.type = "data_flow" ∨ e.type = "order") →
        e.from_node ∈ leafIds g → e.to_node ∈ leafIds g →
        List.indexOf e.from_node out < List.indexOf e.to_node out := by
  have hsub : ∀ a b, (a, b) ∈ subEdges g → dfOrderRel g a b := by
    intro a b hab
    exact (List.mem_filter.mp hab).1
  have hacyc' : ∀ v, ¬ Relation.TransGen (fun a b => (a, b) ∈ subEdges g) v v :=
    fun v hv => hacyc v (Relation.TransGen.mono (fun a b h => hsub a b h) hv)
  have hcov : ∀ e ∈ subEdges g, e.1 ∈ ([] : List String) ∨ e.1 ∈ leafIds g := by
    intro e he
    have hcond := (List.mem_filter.mp he).2
    rw [Bool.and_eq_true_iff] at hcond
    exact Or.inr ((contains_iff_mem _ _).mp hcond.1)
  obtain ⟨out, hpeel, hperm, hprec⟩ :=
    peel_sound (subEdges g) (leafIds g).length (leafIds g) [] (by simpa using hnodup)
      hcov hacyc' (le_refl _)
  refine ⟨out, hpeel, hperm, ?_⟩
  intro e he htype hfrom hto
  apply hprec
  · apply List.mem_filter.mpr
    refine ⟨?_, ?_⟩
    · apply List.mem_map.mpr
      refine ⟨e, List.mem_filter.mpr ⟨he, ?_⟩, rfl⟩
      rcases htype with h | h <;> simp [h]
    · rw [Bool.and_eq_true_iff]
      exact ⟨(contains_iff_mem _ _).mpr hfrom, (contains_iff_mem _ _).mpr hto⟩
  · exact hfrom
  · exact hto

/-- C1 (witness): the statement instantiated on the two-node RPG with a
single `data_flow` edge, acyclicity via an explicit ranking. -/
theorem c1_topological_sort_witness :
    ∃ out, topological_sort exRpgEdgeAB = some out ∧
      List.Perm out (leafIds exRpgEdgeAB) ∧
      ∀ e ∈ exRpgEdgeAB.edges, (e.type = "data_flow" ∨ e.type = "order") →
        e.from_node ∈ leafIds exRpgEdgeAB → e.to_node ∈ leafIds exRpgEdgeAB →
        List.indexOf e.from_node out < List.indexOf e.to_node out := by
  apply c1_topological_sort_exact_and_ordered
  · decide
  · apply ranking_irrefl _ (fun s => if s = "b" then 1 else 0)
    intro a b h
    have hdp : dfOrderPairs exRpgEdgeAB = [("a", "b")] := rfl
    have h' : (a, b) ∈ [("a", "b")] := by rw [← hdp]; exact h
    have heq := List.mem_singleton.mp h'
    rw [Prod.mk.injEq] at heq
    obtain ⟨rfl, rfl⟩ := heq
    decide

/-! ### Claim C6 -/

/-- C6 (counterexample): two isolated function nodes whose node-list
order is the reverse of their `(path_hint, name)` key order:
`topological_sort` returns them in node-list order, not in key order. -/
theorem leafIds_congr : ∀ (l l2 : List RPGNode),
    l.map (fun n => (n.id, n.kind)) = l2.map (fun n => (n.id, n.kind)) →
    (l.filter (fun n => n.kind == "function" || n.kind == "class")).map (fun n => n.id) =
      (l2.filter (fun n => n.kind == "function" || n.kind == "class")).map (fun n => n.id) := by
  intro l
  induction l with
  | nil => intro l2 h; cases l2 <;> simp_all
  | cons n l ih =>
    intro l2 h
    cases l2 with
    | nil => simp at h
    | cons m l2 =>
      simp only [List.map_cons, List.cons.injEq, Prod.mk.injEq] at h
      obtain ⟨⟨hid, hkind⟩, htl⟩ := h
      by_cases hk : (n.kind == "function" || n.kind == "class") = true
      · have hk2 : (m.kind == "function" || m.kind == "class") = true := by
          rw [← hkind]; exact hk
        simp only [List.filter_cons]
        rw [if_pos hk, if_pos hk2]
        simp only [List.map_cons]
        rw [hid, ih l2 htl]
      · have hk2 : ¬ (m.kind == "function" || m.kind == "class") = true := by
          rw [← hkind]; exact hk
        simp only [List.filter_cons]
        rw [if_neg hk, if_neg hk2]
        exact ih l2 htl

theorem nxGens_prefix (edges : List (String × String)) (total : Nat) :
    ∀ (fuel : Nat) (done gen : List String) (l : List String),
      nxGens edges total fuel done gen = some l → ∃ rest, l = done ++ rest := by
  intro fuel
  induction fuel with
  | zero =>
    intro done gen l h
    cases gen with
    | nil =>
      simp only [nxGens] at h
      by_cases hc : done.length = total
      · rw [if_pos hc] at h
        exact ⟨[], by rw [← Option.some.inj h, List.append_nil]⟩
      · rw [if_neg hc] at h
        cases h
    | cons g gr => cases h
  | succ fuel ih =>
    intro done gen l h
    cases gen with
    | nil =>
      simp only [nxGens] at h
      by_cases hc : done.length = total
      · rw [if_pos hc] at h
        exact ⟨[], by rw [← Option.some.inj h, List.append_nil]⟩
      · rw [if_neg hc] at h
        cases h
    | cons g gr =>
      have hstep : nxGens edges total (fuel + 1) done (g :: gr) =
          nxGens edges total fuel (done ++ g :: gr) (sweepNext edges done (g :: gr)) := rfl
      rw [hstep] at h
      obtain ⟨r, hr⟩ := ih (done ++ g :: gr) (sweepNext edges done (g :: gr)) l h
      exact ⟨g :: gr ++ r, by rw [hr, List.append_assoc]⟩

/-- C6, counterexample.  Two isolated function nodes whose node-list
order is the reverse of their `(path_hint, name)` key order: the
generation sweep returns them in node-list order, not in key order, so
the claimed deterministic key is not the tie-break. -/
theorem c6_counterexample_key_tiebreak :
    topological_sort_sweep exRpgTwoLeaves = some ["n1", "n2"] ∧
    specKeyOrder exRpgTwoLeaves = ["n2", "n1"] ∧
    (["n1", "n2"] : List String) ≠ ["n2", "n1"] := by
  exact ⟨by decide, by decide, by decide⟩

/-- C6 (amended): the tie-break of `topological_sort` is the generation
sweep of `nx.topological_generations`, not a `(path_hint, name)` key.
The order is a function of the node ids/kinds (insertion order) and the
edge list alone — relabelling `path_hint` and `name` cannot change it,
so no key on those fields is involved — and when the sort succeeds its
output starts with exactly the zero-in-degree class/function nodes in
node insertion order (generation 0 of the sweep); later generations are
emitted in the order in-degrees reach zero, as `topological_sort_sweep`
computes. -/
theorem c6_generation_sweep_tiebreak :
    (∀ g g2 : RPG,
      g.nodes.map (fun n => (n.id, n.kind)) = g2.nodes.map (fun n => (n.id, n.kind)) →
      g.edges = g2.edges →
      topological_sort_sweep g = topological_sort_sweep g2) ∧
    (∀ (g : RPG) (l : List String), topological_sort_sweep g = some l →
      ∃ rest, l = (leafIds g).filter (fun v => ready (subEdges g) [] v) ++ rest) := by
  constructor
  · intro g g2 hnodes hedges
    have hleaf : leafIds g = leafIds g2 := leafIds_congr g.nodes g2.nodes hnodes
    have hdf : dfOrderPairs g = dfOrderPairs g2 := by
      unfold dfOrderPairs
      rw [hedges]
    have hsub : subEdges g = subEdges g2 := by
      unfold subEdges
      rw [hdf, hleaf]
    unfold topological_sort_sweep
    rw [hleaf, hsub]
  · intro g l h
    unfold topological_sort_sweep at h
    cases hg : (leafIds g).filter (fun v => ready (subEdges g) [] v) with
    | nil => exact ⟨l, (List.nil_append l).symm⟩
    | cons a as =>
      rw [hg] at h
      cases htot : (leafIds g).length with
      | zero =>
        rw [htot] at h
        cases h
      | succ k =>
        rw [htot] at h
        have hstep : nxGens (subEdges g) (k + 1) (k + 1) [] (a :: as) =
            nxGens (subEdges g) (k + 1) k ([] ++ a :: as)
              (sweepNext (subEdges g) [] (a :: as)) := rfl
        rw [hstep] at h
        obtain ⟨r, hr⟩ := nxGens_prefix (subEdges g) (k + 1) k ([] ++ a :: as)
          (sweepNext (subEdges g) [] (a :: as)) l h
        rw [List.nil_append] at hr
        exact ⟨r, hr⟩

/-- C6, witness: the sweep order is unchanged by relabelling
`path_hint`/`name` on the two-leaf example, and on the four-node example
a→d, b→c the output [a, b, d, c] starts with generation 0 = [a, b] in
insertion order. -/
theorem c6_generation_sweep_witness :
    (exRpgTwoLeaves.nodes.map (fun n => (n.id, n.kind)) =
        exRpgTwoLeavesRelabel.nodes.map (fun n => (n.id, n.kind)) ∧
      exRpgTwoLeaves.edges = exRpgTwoLeavesRelabel.edges ∧
      topological_sort_sweep exRpgTwoLeaves = topological_sort_sweep exRpgTwoLeavesRelabel) ∧
    (topological_sort_sweep exRpgSweep = some ["a", "b", "d", "c"] ∧
      ∃ rest, (["a", "b", "d", "c"] : List String) =
        (leafIds exRpgSweep).filter (fun v => ready (subEdges exRpgSweep) [] v) ++ rest) :=
  ⟨⟨by decide, by decide, c6_generation_sweep_tiebreak.1 _ _ (by decide) (by decide)⟩,
   by decide, c6_generation_sweep_tiebreak.2 exRpgSweep ["a", "b", "d", "c"] (by decide)⟩

/-! ### Claim C10 -/

/-- C10: every nonempty RPG in which more than 80 percent of the nodes
are isolated in the `data_flow`/`order` graph is rejected by
`validate_dag` with a nonempty error list, even when every edge endpoint
resolves and the `data_flow`/`order` subgraph is acyclic — so graphs
satisfying the documented invariants are nevertheless rejected. -/
theorem c10_validate_rejects_isolated (g : RPG)
    (hne : g.nodes ≠ [])
    (href : ∀ e ∈ g.edges, e.from_node ∈ g.nodes.map (fun n => n.id) ∧
      e.to_node ∈ g.nodes.map (fun n => n.id))
    (hacyc : ∀ v, ¬ Relation.TransGen (dfOrderRel g) v v)
    (hiso : 5 * isolatedCount g > 4 * g.nodes.length) :
    (validate_dag g).1 = false ∧ (validate_dag g).2 ≠ [] := by
  have h2 : (validate_dag g).2 =
      (if (peel (dfOrderPairs g) (gNodeIds g).length [] (gNodeIds g)).isNone
       then [VErr.cycles] else []) ++
      (if 5 * isolatedCount g > 4 * g.nodes.length then [VErr.excessiveIsolated] else []) ++
      g.edges.flatMap (fun e =>
        (if (g.nodes.map (fun n => n.id)).contains e.from_node then []
         else [VErr.missingSource e.from_node]) ++
        (if (g.nodes.map (fun n => n.id)).contains e.to_node then []
         else [VErr.missingTarget e.to_node])) := rfl
  rw [if_pos hiso] at h2
  have hnonempty : (validate_dag g).2 ≠ [] := by
    rw [h2]
    intro hc
    obtain ⟨h3, -⟩ := List.append_eq_nil.mp hc
    obtain ⟨-, h4⟩ := List.append_eq_nil.mp h3
    exact List.cons_ne_nil _ _ h4
  refine ⟨?_, hnonempty⟩
  have h1 : (validate_dag g).1 = ((validate_dag g).2).isEmpty := rfl
  rw [h1]
  cases hc : (validate_dag g).2 with
  | nil => exact absurd hc hnonempty
  | cons a l => rfl

/-- C10 (witness): the single-capability-node RPG (one node, no edges,
100 percent isolated) is rejected. -/
theorem c10_validate_rejects_witness :
    (validate_dag exRpgIsolated).1 = false ∧ (validate_dag exRpgIsolated).2 ≠ [] := by
  apply c10_validate_rejects_isolated
  · intro hc
    exact List.cons_ne_nil _ _ hc
  · intro e he
    exact absurd he (List.not_mem_nil e)
  · exact ranking_irrefl _ (fun _ => 0) (fun a b h => absurd h (List.not_mem_nil _))
  · decide

/-- C2 (witness): the batch facts of the characterization instantiated
on a concrete state and candidate list. -/
theorem c2_acceptance_filter_witness :
    (∀ fp ∈ (acceptFeatures ⟨["ml/algorithms"], []⟩ []).2,
      (∀ seg ∈ splitSlash (pyLower fp.path), ∀ w ∈ genericPatterns,
         containsSub w.data seg = false) ∧
      ∀ q ∈ (⟨["ml/algorithms"], []⟩ : PropState).selected,
        5 * (segFinset fp.path ∩ segFinset q).card ≤
          4 * (segFinset fp.path ∪ segFinset q).card) ∧
    (acceptFeatures ⟨["ml/algorithms"], []⟩ []).2.Pairwise (fun a b =>
      5 * (segFinset a.path ∩ segFinset b.path).card ≤
        4 * (segFinset a.path ∪ segFinset b.path).card) :=
  (c2_acceptance_filter_characterization).2 ⟨["ml/algorithms"], []⟩ []

/-- C5 (witness): the directed-reachability characterization
instantiated on the example RPG. -/
theorem c5_neighborhood_witness :
    "b" ∈ get_neighborhood exRpgEdgeAB "a" 1 ↔
      ("a" ∈ gNodeIds exRpgEdgeAB ∧ (∃ n ∈ exRpgEdgeAB.nodes, n.id = "b") ∧
        ReachWithin (fun a b => (a, b) ∈ dfOrderPairs exRpgEdgeAB) 1 "a" "b") :=
  c5_neighborhood_directed_reachability exRpgEdgeAB "a" 1 "b"

/-! ### Claim C4 -/

theorem addToSet_ne_nil (l : List (Option String)) (x : Option String) :
    addToSet l x ≠ [] := by
  unfold addToSet
  by_cases h : l.contains x
  · rw [if_pos h]
    intro hc
    rw [hc] at h
    simp at h
  · rw [if_neg h]
    intro hc
    exact absurd (List.append_eq_nil.mp hc).2 (List.cons_ne_nil x [])

theorem stageFold_failed_iff (g : RPG) (outcome : String → Option Bool) :
    ∀ (order : List String) (acc : StageAcc),
      (acc.failedN = 0 ↔ acc.failed = []) →
      ((order.foldl (stageStep g outcome) acc).failedN = 0 ↔
        (order.foldl (stageStep g outcome) acc).failed = []) := by
  intro order
  induction order with
  | nil => intro acc h; exact h
  | cons nid rest ih =>
    intro acc h
    rw [List.foldl_cons]
    apply ih
    cases hgn : g.get_node nid with
    | none => simp only [stageStep, hgn]; exact h
    | some n =>
      by_cases hk : (n.kind == "function" || n.kind == "class") = true
      · cases ho : outcome n.id with
        | none =>
          simp only [stageStep, hgn, if_pos hk, ho]
          constructor
          · intro hc; exact absurd hc (Nat.succ_ne_zero _)
          · intro hc; exact absurd hc (addToSet_ne_nil _ _)
        | some b =>
          cases b with
          | true => simp only [stageStep, hgn, if_pos hk, ho]; exact h
          | false =>
            simp only [stageStep, hgn, if_pos hk, ho]
            constructor
            · intro hc; exact absurd hc (Nat.succ_ne_zero _)
            · intro hc; exact absurd hc (addToSet_ne_nil _ _)
      · simp only [stageStep, hgn, if_neg hk]; exact h

/-- C4 (counterexample): on a cyclic RPG the codegen stage raises, the
orchestrator catches, and the returned result's `metrics` dict is
exactly `{"pipeline_error": True}` — it contains no `success_rate`, so
the claim's "always contains metrics.success_rate (including the abort
paths)" is false. -/
theorem c4_counterexample_abort_metrics :
    runFullPipeline (generateRepository exRpgCycle (fun _ => some true) exInteg) =
      { success := false, errors := ["Pipeline failed: NetworkXUnfeasible"],
        metricsKeys := ["pipeline_error"] } ∧
    "success_rate" ∉
      (runFullPipeline (generateRepository exRpgCycle (fun _ => some true) exInteg)).metricsKeys := by
  exact ⟨rfl, by decide⟩

/-- C4 (amended): on every normal stage completion the result has
`success = true` iff the failure count is zero iff `failed_files` is
empty, carries the integration report, and its metrics contain
`success_rate` (also after the orchestrator adds the proposal keys); but
on the exception-abort path the fresh result carries the pydantic
defaults for the file lists and test results and its metrics dict is
`{"pipeline_error": True}`, without `success_rate`. -/
theorem c4_result_fields_and_success_iff :
    (∀ (g : RPG) (outcome : String → Option Bool) (integ : IntegrationReport) (r : StageResult),
      generateRepository g outcome integ = Except.ok r →
      ((r.success = true ↔ r.failedCount = 0) ∧
       (r.success = true ↔ r.failed_files = []) ∧
       r.test_results = some integ ∧
       "success_rate" ∈ r.metricsKeys ∧
       "success_rate" ∈ (runFullPipeline (Except.ok r)).metricsKeys)) ∧
    (∀ e : String,
      (runFullPipeline (Except.error e)).success = false ∧
      (runFullPipeline (Except.error e)).generated_files = [] ∧
      (runFullPipeline (Except.error e)).failed_files = [] ∧
      (runFullPipeline (Except.error e)).test_results = none ∧
      (runFullPipeline (Except.error e)).metricsKeys = ["pipeline_error"] ∧
      "success_rate" ∉ (runFullPipeline (Except.error e)).metricsKeys) := by
  constructor
  · intro g outcome integ r h
    unfold generateRepository at h
    cases hts : topological_sort g with
    | none => rw [hts] at h; exact absurd h (by simp)
    | some order =>
      rw [hts] at h
      injection h with h
      subst h
      have hfold := stageFold_failed_iff g outcome order ⟨[], [], 0, 0⟩ (by simp)
      refine ⟨decide_eq_true_iff, ?_, rfl, by simp, by simp [runFullPipeline]⟩
      exact decide_eq_true_iff.trans hfold
  · intro e
    exact ⟨rfl, rfl, rfl, rfl, rfl,
      (show "success_rate" ∉ (["pipeline_error"] : List String) by decide)⟩

/-- C4 (witness): the normal-path facts instantiated on the one-node RPG
with an always-succeeding outcome. -/
theorem c4_result_fields_witness :
    ∃ r, generateRepository exRpgOneFun (fun _ => some true) exInteg = Except.ok r ∧
      ((r.success = true ↔ r.failedCount = 0) ∧
       (r.success = true ↔ r.failed_files = []) ∧
       r.test_results = some exInteg ∧
       "success_rate" ∈ r.metricsKeys ∧
       "success_rate" ∈ (runFullPipeline (Except.ok r)).metricsKeys) := by
  obtain ⟨r, hr⟩ : ∃ r, generateRepository exRpgOneFun (fun _ => some true) exInteg
      = Except.ok r := ⟨_, rfl⟩
  exact ⟨r, hr, (c4_result_fields_and_success_iff).1 exRpgOneFun _ exInteg r hr⟩

/-! ### Lemmas for the capability-graph builder (C9) -/

theorem sdata_append (a b : String) : (a ++ b).data = a.data ++ b.data := rfl

theorem smk_data (s : String) : String.mk s.data = s := rfl

theorem empty_append_str (s : String) : ("" : String) ++ s = s := by
  cases s; rfl

theorem splitOnChar_append (sep : Char) :
    ∀ xs ys : List Char,
      splitOnChar sep (xs ++ sep :: ys) = splitOnChar sep xs ++ splitOnChar sep ys := by
  intro xs ys
  induction xs with
  | nil => simp [splitOnChar]
  | cons c xs ih =>
    by_cases hc : c = sep
    · simp [splitOnChar, hc, ih]
    · rcases hsp : splitOnChar sep xs with _ | ⟨s, rest⟩
      · exact absurd hsp (splitOnChar_ne_nil sep xs)
      · simp [splitOnChar, hc, ih, hsp]

theorem splitOnChar_of_not_mem (sep : Char) :
    ∀ cs : List Char, sep ∉ cs → splitOnChar sep cs = [cs] := by
  intro cs
  induction cs with
  | nil => intro _; rfl
  | cons c cs ih =>
    intro h
    have hc : ¬ c = sep := fun he => h (by simp [he])
    have hcs : sep ∉ cs := fun hm => h (List.mem_cons_of_mem _ hm)
    simp [splitOnChar, hc, ih hcs]

theorem splitOnChar_not_mem (sep : Char) :
    ∀ cs : List Char, ∀ seg ∈ splitOnChar sep cs, sep ∉ seg := by
  intro cs
  induction cs with
  | nil =>
    intro seg hseg
    simp [splitOnChar] at hseg
    simp [hseg]
  | cons c cs ih =>
    intro seg hseg
    by_cases hc : c = sep
    · simp [splitOnChar, hc] at hseg
      rcases hseg with h | h
      · simp [h]
      · exact ih seg h
    · rcases hsp : splitOnChar sep cs with _ | ⟨s, rest⟩
      · exact absurd hsp (splitOnChar_ne_nil sep cs)
      · simp [splitOnChar, hc, hsp] at hseg
        rcases hseg with h | h
        · subst h
          intro hm
          rcases List.mem_cons.mp hm with h | h
          · exact hc h.symm
          · exact ih s (by simp [hsp]) h
        · exact ih seg (by simp [hsp, h])

theorem joinSlash_splitSlash : ∀ cs : List Char, joinSlash (splitSlash cs) = cs := by
  intro cs
  induction cs with
  | nil => rfl
  | cons c cs ih =>
    by_cases hc : c = '/'
    · rcases hsp : splitSlash cs with _ | ⟨s, rest⟩
      · exact absurd hsp (splitOnChar_ne_nil '/' cs)
      · subst hc
        have hsp2 : splitOnChar '/' cs = s :: rest := hsp
        show joinSlash ([] :: splitOnChar '/' cs) = '/' :: cs
        rw [hsp2]
        show [] ++ '/' :: joinSlash (s :: rest) = '/' :: cs
        rw [show joinSlash (s :: rest) = cs from hsp ▸ ih]
        rfl
    · rcases hsp : splitSlash cs with _ | ⟨s, rest⟩
      · exact absurd hsp (splitOnChar_ne_nil '/' cs)
      · show joinSlash (splitOnChar '/' (c :: cs)) = c :: cs
        have hstep : splitOnChar '/' (c :: cs) = (c :: s) :: rest := by
          simp [splitOnChar, hc]
          rw [show splitOnChar '/' cs = s :: rest from hsp]
        rw [hstep]
        rcases rest with _ | ⟨r, rest2⟩
        · show c :: s = c :: cs
          have : joinSlash [s] = cs := hsp ▸ ih
          simpa [joinSlash] using this
        · show (c :: s) ++ '/' :: joinSlash (r :: rest2) = c :: cs
          have : s ++ '/' :: joinSlash (r :: rest2) = cs := by
            have h2 : joinSlash (s :: r :: rest2) = cs := hsp ▸ ih
            simpa [joinSlash] using h2
          simp [this]

theorem parentOf_slash_free {p : String} (h : '/' ∉ p.data) : parentOfPrefix p = none := by
  unfold parentOfPrefix
  rw [show splitSlash p.data = [p.data] from splitOnChar_of_not_mem '/' p.data h]
  simp

theorem parentOf_canonical (a seg : String) (h : '/' ∉ seg.data) :
    parentOfPrefix (a ++ "/" ++ seg) = some a := by
  have hdata : (a ++ "/" ++ seg).data = a.data ++ '/' :: seg.data := by
    rw [sdata_append, sdata_append]
    simp [show ("/" : String).data = ['/'] from rfl]
  have hsp : splitSlash (a ++ "/" ++ seg).data = splitSlash a.data ++ [seg.data] := by
    rw [hdata]
    show splitOnChar '/' (a.data ++ '/' :: seg.data) = _
    rw [splitOnChar_append '/' a.data seg.data,
        show splitOnChar '/' seg.data = [seg.data] from splitOnChar_of_not_mem '/' seg.data h]
    rfl
  unfold parentOfPrefix
  rw [hsp]
  rcases hsa : splitSlash a.data with _ | ⟨s, rest⟩
  · exact absurd hsa (splitOnChar_ne_nil '/' a.data)
  · have hlen : ¬ ((s :: rest) ++ [seg.data]).length ≤ 1 := by
      simp [List.length_append]
    rw [if_neg (hsa ▸ hlen)]
    rw [List.dropLast_concat]
    have hj : joinSlash (s :: rest) = a.data := by
      rw [← hsa]; exact joinSlash_splitSlash a.data
    rw [hj, smk_data]

theorem digitsVal_natDigitsRevFuel :
    ∀ fuel n : Nat, n ≤ fuel → digitsVal (natDigitsRevFuel fuel n) = n := by
  intro fuel
  induction fuel with
  | zero =>
    intro n hn
    simp [Nat.le_zero.mp hn, natDigitsRevFuel, digitsVal]
  | succ fuel ih =>
    intro n hn
    by_cases h0 : n = 0
    · simp [h0, natDigitsRevFuel, digitsVal]
    · have hlt : n / 10 < n := Nat.div_lt_self (Nat.pos_of_ne_zero h0) (by decide)
      have hle : n / 10 ≤ fuel := Nat.le_of_lt_succ (Nat.lt_of_lt_of_le hlt hn)
      simp only [natDigitsRevFuel, h0, if_false, digitsVal]
      rw [ih (n / 10) hle]
      exact Nat.mod_add_div n 10

theorem natDigitsRevFuel_lt_10 :
    ∀ fuel n : Nat, ∀ d ∈ natDigitsRevFuel fuel n, d < 10 := by
  intro fuel
  induction fuel with
  | zero => intro n d hd; simp [natDigitsRevFuel] at hd
  | succ fuel ih =>
    intro n d hd
    by_cases h0 : n = 0
    · simp [natDigitsRevFuel, h0] at hd
    · simp only [natDigitsRevFuel, h0, if_false] at hd
      rcases List.mem_cons.mp hd with h | h
      · subst h; exact Nat.mod_lt n (by decide)
      · exact ih (n / 10) d h

theorem toNat_digitChar {d : Nat} (hd : d < 10) : (digitChar d).toNat = 48 + d := by
  unfold digitChar
  interval_cases d <;> decide

theorem digitChar_inj {d1 d2 : Nat} (h1 : d1 < 10) (h2 : d2 < 10)
    (h : digitChar d1 = digitChar d2) : d1 = d2 := by
  have := congrArg Char.toNat h
  rw [toNat_digitChar h1, toNat_digitChar h2] at this
  omega

theorem map_digitChar_inj :
    ∀ l1 l2 : List Nat, (∀ d ∈ l1, d < 10) → (∀ d ∈ l2, d < 10) →
      l1.map digitChar = l2.map digitChar → l1 = l2 := by
  intro l1
  induction l1 with
  | nil => intro l2 _ _ h; cases l2 <;> simp_all
  | cons d l1 ih =>
    intro l2 h1 h2 h
    cases l2 with
    | nil => simp at h
    | cons e l2 =>
      simp only [List.map_cons, List.cons.injEq] at h
      have hde : d = e :=
        digitChar_inj (h1 d (by simp)) (h2 e (by simp)) h.1
      have : l1 = l2 :=
        ih l2 (fun x hx => h1 x (by simp [hx])) (fun x hx => h2 x (by simp [hx])) h.2
      rw [hde, this]

theorem natRepr_inj : ∀ {m n : Nat}, natRepr m = natRepr n → m = n := by
  intro m n h
  unfold natRepr at h
  by_cases hm : m = 0 <;> by_cases hn : n = 0
  · rw [hm, hn]
  · exfalso
    rw [if_pos hm, if_neg hn] at h
    have hdata := congrArg String.data h
    have hz : (['0'] : List Char) = ((natDigitsRevFuel n n).reverse).map digitChar := hdata
    have hmap : ([0] : List Nat).map digitChar = ((natDigitsRevFuel n n).reverse).map digitChar := hz
    have hrev : ([0] : List Nat) = (natDigitsRevFuel n n).reverse :=
      map_digitChar_inj _ _ (by simp) (fun d hd =>
        natDigitsRevFuel_lt_10 n n d (List.mem_reverse.mp hd)) hmap
    have hdig : natDigitsRevFuel n n = [0] := by
      have := congrArg List.reverse hrev
      simpa using this.symm
    have := digitsVal_natDigitsRevFuel n n (Nat.le_refl n)
    rw [hdig] at this
    simp [digitsVal] at this
    exact hn this.symm
  · exfalso
    rw [if_neg hm, if_pos hn] at h
    have hdata := congrArg String.data h.symm
    have hz : (['0'] : List Char) = ((natDigitsRevFuel m m).reverse).map digitChar := hdata
    have hmap : ([0] : List Nat).map digitChar = ((natDigitsRevFuel m m).reverse).map digitChar := hz
    have hrev : ([0] : List Nat) = (natDigitsRevFuel m m).reverse :=
      map_digitChar_inj _ _ (by simp) (fun d hd =>
        natDigitsRevFuel_lt_10 m m d (List.mem_reverse.mp hd)) hmap
    have hdig : natDigitsRevFuel m m = [0] := by
      have := congrArg List.reverse hrev
      simpa using this.symm
    have := digitsVal_natDigitsRevFuel m m (Nat.le_refl m)
    rw [hdig] at this
    simp [digitsVal] at this
    exact hm this.symm
  · rw [if_neg hm, if_neg hn] at h
    have hdata := congrArg String.data h
    have hmap : ((natDigitsRevFuel m m).reverse).map digitChar =
        ((natDigitsRevFuel n n).reverse).map digitChar := hdata
    have hrev : (natDigitsRevFuel m m).reverse = (natDigitsRevFuel n n).reverse :=
      map_digitChar_inj _ _
        (fun d hd => natDigitsRevFuel_lt_10 m m d (List.mem_reverse.mp hd))
        (fun d hd => natDigitsRevFuel_lt_10 n n d (List.mem_reverse.mp hd)) hmap
    have hdig : natDigitsRevFuel m m = natDigitsRevFuel n n := by
      have := congrArg List.reverse hrev
      simpa using this
    have h1 := digitsVal_natDigitsRevFuel m m (Nat.le_refl m)
    have h2 := digitsVal_natDigitsRevFuel n n (Nat.le_refl n)
    rw [← h1, ← h2, hdig]

theorem capId_inj : Function.Injective capId := by
  intro j k h
  unfold capId at h
  have hdata := congrArg String.data h
  rw [sdata_append, sdata_append] at hdata
  have := List.append_cancel_left hdata
  have hrepr : natRepr j = natRepr k := by
    have h2 := congrArg String.mk this
    rwa [smk_data, smk_data] at h2
  exact natRepr_inj hrepr

theorem map_pair_transfer {α β γ δ : Type} {f : α → γ} {g : β → γ} {f1 : α → δ} {g1 : β → δ} :
    ∀ {la : List α} {lb : List β}, la.map f = lb.map g → la.map f1 = lb.map g1 →
      ∀ x ∈ la, ∃ y ∈ lb, f x = g y ∧ f1 x = g1 y := by
  intro la
  induction la with
  | nil => intro lb _ _ x hx; simp at hx
  | cons a la ih =>
    intro lb h1 h2 x hx
    cases lb with
    | nil => simp at h1
    | cons b lb =>
      simp only [List.map_cons, List.cons.injEq] at h1 h2
      rcases List.mem_cons.mp hx with h | h
      · exact ⟨b, by simp, h ▸ h1.1, h ▸ h2.1⟩
      · obtain ⟨y, hy, hfy, hf1y⟩ := ih h1.2 h2.2 x h
        exact ⟨y, by simp [hy], hfy, hf1y⟩

theorem lookupA_mem : ∀ (l : List (String × String)) (k v : String),
    lookupA l k = some v → (k, v) ∈ l := by
  intro l k v
  induction l with
  | nil => intro h; simp [lookupA] at h
  | cons e l ih =>
    intro h
    by_cases he : e.1 = k
    · simp only [lookupA, if_pos he] at h
      have : e = (k, v) := by
        cases e
        simp_all
      simp [this]
    · simp only [lookupA, if_neg he] at h
      exact List.mem_cons_of_mem _ (ih h)

theorem lookupA_none : ∀ (l : List (String × String)) (k : String),
    lookupA l k = none → k ∉ l.map (fun e => e.1) := by
  intro l k
  induction l with
  | nil => intro _; simp
  | cons e l ih =>
    intro h
    by_cases he : e.1 = k
    · simp [lookupA, if_pos he] at h
    · simp only [lookupA, if_neg he] at h
      simp only [List.map_cons, List.mem_cons]
      rintro (h1 | h1)
      · exact he h1.symm
      · exact ih h h1

theorem appendChild_map {γ : Type} (f : RPGNode → γ)
    (hf : ∀ (n : RPGNode) (cs : List String), f { n with children := cs } = f n) :
    ∀ (l : List RPGNode) (pid cid : String), (appendChild l pid cid).map f = l.map f := by
  intro l pid cid
  induction l with
  | nil => rfl
  | cons n l ih =>
    by_cases hn : n.id = pid
    · have hstep : appendChild (n :: l) pid cid =
          { n with children := n.children ++ [cid] } :: l := by
        simp [appendChild, if_pos hn]
      rw [hstep, List.map_cons, List.map_cons, hf]
    · have hstep : appendChild (n :: l) pid cid = n :: appendChild l pid cid := by
        simp [appendChild, if_neg hn]
      rw [hstep, List.map_cons, List.map_cons, ih]

theorem appendChild_length : ∀ (l : List RPGNode) (pid cid : String),
    (appendChild l pid cid).length = l.length := by
  intro l pid cid
  induction l with
  | nil => rfl
  | cons n l ih =>
    by_cases hn : n.id = pid
    · simp [appendChild, hn]
    · simp [appendChild, hn, ih]

theorem appendChild_mono : ∀ (l : List RPGNode) (pid cid : String), ∀ n ∈ l,
    ∃ n1 ∈ appendChild l pid cid, n1.id = n.id ∧ n1.metaFeaturePath = n.metaFeaturePath ∧
      n1.kind = n.kind ∧ ∀ c ∈ n.children, c ∈ n1.children := by
  intro l pid cid
  induction l with
  | nil => intro n hn; simp at hn
  | cons m l ih =>
    intro n hn
    by_cases hm : m.id = pid
    · rcases List.mem_cons.mp hn with h | h
      · refine ⟨{ m with children := m.children ++ [cid] }, by simp [appendChild, hm], ?_⟩
        subst h
        refine ⟨rfl, rfl, rfl, fun c hc => ?_⟩
        simp [hc]
      · exact ⟨n, by simp [appendChild, hm, h], rfl, rfl, rfl, fun c hc => hc⟩
    · rcases List.mem_cons.mp hn with h | h
      · exact ⟨n, by simp [appendChild, hm, h], rfl, rfl, rfl, fun c hc => hc⟩
      · obtain ⟨n1, hn1, he⟩ := ih n h
        exact ⟨n1, by simp [appendChild, hm, hn1], he⟩

theorem appendChild_hit : ∀ (l : List RPGNode) (pid cid : String),
    (l.map (fun n => n.id)).Nodup → ∀ n ∈ l, n.id = pid →
    ∃ n1 ∈ appendChild l pid cid, n1.id = pid ∧ n1.metaFeaturePath = n.metaFeaturePath ∧
      cid ∈ n1.children := by
  intro l pid cid
  induction l with
  | nil => intro _ n hn; simp at hn
  | cons m l ih =>
    intro hnodup n hn hid
    simp only [List.map_cons, List.nodup_cons] at hnodup
    by_cases hm : m.id = pid
    · rcases List.mem_cons.mp hn with h | h
      · refine ⟨{ m with children := m.children ++ [cid] }, by simp [appendChild, hm], hm, ?_, by simp⟩
        rw [← h]
      · exfalso
        have hmem : n.id ∈ l.map (fun x => x.id) := List.mem_map.mpr ⟨n, h, rfl⟩
        rw [hid, ← hm] at hmem
        exact hnodup.1 hmem
    · rcases List.mem_cons.mp hn with h | h
      · exact absurd (h ▸ hid) hm
      · obtain ⟨n1, hn1, he⟩ := ih hnodup.2 n h hid
        exact ⟨n1, by simp [appendChild, hm, hn1], he⟩

theorem capId_not_mem_range (n : Nat) : capId n ∉ (List.range n).map capId := by
  intro h
  obtain ⟨j, hj, he⟩ := List.mem_map.mp h
  have := capId_inj he
  rw [this] at hj
  exact absurd (List.mem_range.mp hj) (lt_irrefl n)

theorem binv_node_of_entry {st : BuildSt} (hinv : BInv st) {p i : String}
    (h : (p, i) ∈ st.pathToNode) :
    ∃ n ∈ st.nodes, n.id = i ∧ n.metaFeaturePath = some p := by
  obtain ⟨_, h2, h3, _, _, _⟩ := hinv
  obtain ⟨y, hy, he1, he2⟩ := map_pair_transfer h2 h3 (p, i) h
  exact ⟨y, hy, he1.symm, he2.symm⟩

theorem binv_ids_nodup {st : BuildSt} (hinv : BInv st) :
    (st.nodes.map (fun n => n.id)).Nodup := by
  rw [hinv.1]
  exact (List.nodup_range st.nodes.length).map capId_inj

theorem addPrefixStep_inv (fp : FeaturePath) (part curPath : String)
    (parentId : Option String) (st : BuildSt)
    (hinv : BInv st)
    (hpar : ∀ pid, parentId = some pid →
      ∃ curPrev, (curPrev, pid) ∈ st.pathToNode ∧ parentOfPrefix curPath = some curPrev)
    (hnone : parentId = none → parentOfPrefix curPath = none) :
    BInv (addPrefixStep fp part curPath parentId st).1 ∧
    (∀ p, p ∈ (addPrefixStep fp part curPath parentId st).1.pathToNode.map (fun e => e.1) ↔
      p ∈ st.pathToNode.map (fun e => e.1) ∨ p = curPath) ∧
    (curPath, (addPrefixStep fp part curPath parentId st).2) ∈
      (addPrefixStep fp part curPath parentId st).1.pathToNode := by
  cases hl : lookupA st.pathToNode curPath with
  | some nid =>
    have hred : addPrefixStep fp part curPath parentId st = (st, nid) := by
      simp [addPrefixStep, hl]
    rw [hred]
    refine ⟨hinv, ?_, lookupA_mem _ _ _ hl⟩
    intro p
    constructor
    · exact fun h => Or.inl h
    · rintro (h | h)
      · exact h
      · rw [h]
        exact List.mem_map.mpr ⟨(curPath, nid), lookupA_mem _ _ _ hl, rfl⟩
  | none =>
    have hfresh : curPath ∉ st.pathToNode.map (fun e => e.1) := lookupA_none _ _ hl
    cases parentId with
    | none =>
      have hpp : parentOfPrefix curPath = none := hnone rfl
      have hred : addPrefixStep fp part curPath none st =
          ({ nodes := st.nodes ++ [newCapNode fp part curPath st.nodes.length],
             edges := st.edges,
             pathToNode := st.pathToNode ++ [(curPath, capId st.nodes.length)] },
           capId st.nodes.length) := by
        simp [addPrefixStep, hl]
      rw [hred]
      obtain ⟨h1, h2, h3, h4, h5, h6⟩ := hinv
      refine ⟨⟨?_, ?_, ?_, ?_, ?_, ?_⟩, ?_, ?_⟩
      · show (st.nodes ++ [newCapNode fp part curPath st.nodes.length]).map (fun n => n.id) = _
        simp only [List.map_append, List.length_append]
        rw [h1]
        simp [newCapNode, List.range_succ]
      · show (st.pathToNode ++ [(curPath, capId st.nodes.length)]).map (fun e => e.2) = _
        simp only [List.map_append]
        rw [h2]
        simp [newCapNode]
      · show (st.pathToNode ++ [(curPath, capId st.nodes.length)]).map (fun e => some e.1) = _
        simp only [List.map_append]
        rw [h3]
        simp [newCapNode]
      · show ((st.pathToNode ++ [(curPath, capId st.nodes.length)]).map (fun e => e.1)).Nodup
        rw [List.map_append]
        refine List.nodup_append.mpr ⟨h4, by simp, ?_⟩
        intro a ha hb
        simp at hb
        rw [hb] at ha
        exact hfresh ha
      · intro n hn
        rcases List.mem_append.mp hn with h | h
        · exact h5 n h
        · simp at h
          rw [h]
          rfl
      · intro pr hpr a hpa
        rcases List.mem_append.mp hpr with h | h
        · obtain ⟨pn, hpn, cn, hcn, e1, e2, e3, e4⟩ := h6 pr h a hpa
          exact ⟨pn, List.mem_append_left _ hpn, cn, List.mem_append_left _ hcn, e1, e2, e3, e4⟩
        · exfalso
          simp at h
          rw [h] at hpa
          simp [hpp] at hpa
      · intro p
        simp
      · simp
    | some pid =>
      obtain ⟨curPrev, hprev_mem, hpp⟩ := hpar pid rfl
      obtain ⟨pn0, hpn0, hpn0id, hpn0fp⟩ := binv_node_of_entry hinv hprev_mem
      have hred : addPrefixStep fp part curPath (some pid) st =
          ({ nodes := appendChild (st.nodes ++ [newCapNode fp part curPath st.nodes.length])
               pid (capId st.nodes.length),
             edges := st.edges ++
               [{ from_node := pid, to_node := capId st.nodes.length, type := "depends_on",
                  note := some "hierarchical containment" }],
             pathToNode := st.pathToNode ++ [(curPath, capId st.nodes.length)] },
           capId st.nodes.length) := by
        simp [addPrefixStep, hl]
      rw [hred]
      have hLid : (st.nodes ++ [newCapNode fp part curPath st.nodes.length]).map (fun n => n.id) =
          (List.range (st.nodes.length + 1)).map capId := by
        simp only [List.map_append]
        rw [hinv.1]
        simp [newCapNode, List.range_succ]
      have hLnodup : ((st.nodes ++ [newCapNode fp part curPath st.nodes.length]).map
          (fun n => n.id)).Nodup := by
        rw [hLid]
        exact (List.nodup_range _).map capId_inj
      have hmapid := appendChild_map (fun n => n.id) (fun n cs => rfl)
        (st.nodes ++ [newCapNode fp part curPath st.nodes.length]) pid (capId st.nodes.length)
      have hmapfp := appendChild_map (fun n => n.metaFeaturePath) (fun n cs => rfl)
        (st.nodes ++ [newCapNode fp part curPath st.nodes.length]) pid (capId st.nodes.length)
      have hmapkind := appendChild_map (fun n => n.kind) (fun n cs => rfl)
        (st.nodes ++ [newCapNode fp part curPath st.nodes.length]) pid (capId st.nodes.length)
      have hlen := appendChild_length
        (st.nodes ++ [newCapNode fp part curPath st.nodes.length]) pid (capId st.nodes.length)
      refine ⟨⟨?_, ?_, ?_, ?_, ?_, ?_⟩, ?_, ?_⟩
      · show (appendChild _ _ _).map (fun n => n.id) = _
        rw [hmapid, hLid, hlen]
        simp
      · show (st.pathToNode ++ [(curPath, capId st.nodes.length)]).map (fun e => e.2) = _
        rw [hmapid]
        simp only [List.map_append]
        rw [hinv.2.1]
        simp [newCapNode]
      · show (st.pathToNode ++ [(curPath, capId st.nodes.length)]).map (fun e => some e.1) = _
        rw [hmapfp]
        simp only [List.map_append]
        rw [hinv.2.2.1]
        simp [newCapNode]
      · show ((st.pathToNode ++ [(curPath, capId st.nodes.length)]).map (fun e => e.1)).Nodup
        rw [List.map_append]
        refine List.nodup_append.mpr ⟨hinv.2.2.2.1, by simp, ?_⟩
        intro a ha hb
        simp at hb
        rw [hb] at ha
        exact hfresh ha
      · intro n hn
        have hk : n.kind ∈ (appendChild (st.nodes ++ [newCapNode fp part curPath st.nodes.length])
            pid (capId st.nodes.length)).map (fun x => x.kind) :=
          List.mem_map.mpr ⟨n, hn, rfl⟩
        rw [hmapkind] at hk
        obtain ⟨m, hm, hmk⟩ := List.mem_map.mp hk
        rw [← hmk]
        rcases List.mem_append.mp hm with h | h
        · exact hinv.2.2.2.2.1 m h
        · simp at h
          rw [h]
          rfl
      · intro pr hpr a hpa
        rcases List.mem_append.mp hpr with h | h
        · obtain ⟨pn, hpn, cn, hcn, e1, e2, e3, e4⟩ := hinv.2.2.2.2.2 pr h a hpa
          obtain ⟨pn1, hpn1, hq1, hq2, hq3, hq4⟩ := appendChild_mono _ pid (capId st.nodes.length)
            pn (List.mem_append_left _ hpn)
          obtain ⟨cn1, hcn1, hr1, hr2, hr3, hr4⟩ := appendChild_mono _ pid (capId st.nodes.length)
            cn (List.mem_append_left _ hcn)
          refine ⟨pn1, hpn1, cn1, hcn1, by rw [hq2]; exact e1, by rw [hr2]; exact e2, ?_, ?_⟩
          · rw [hq1, hr1]
            exact List.mem_append_left _ e3
          · rw [hr1]
            exact hq4 cn.id e4
        · simp at h
          rw [h] at hpa ⊢
          have ha : a = curPrev := by
            rw [hpa] at hpp
            exact Option.some.inj hpp
          obtain ⟨pn1, hpn1, hs1, hs2, hs3⟩ := appendChild_hit
            (st.nodes ++ [newCapNode fp part curPath st.nodes.length]) pid (capId st.nodes.length)
            hLnodup pn0 (List.mem_append_left _ hpn0) hpn0id
          obtain ⟨cn1, hcn1, ht1, ht2, ht3, ht4⟩ := appendChild_mono _ pid (capId st.nodes.length)
            (newCapNode fp part curPath st.nodes.length)
            (List.mem_append_right _ (List.mem_singleton.mpr rfl))
          refine ⟨pn1, hpn1, cn1, hcn1, ?_, ?_, ?_, ?_⟩
          · rw [hs2, hpn0fp, ha]
          · rw [ht2]
            rfl
          · rw [hs1, ht1]
            refine List.mem_append_right _ ?_
            simp [newCapNode]
          · rw [ht1]
            show (newCapNode fp part curPath st.nodes.length).id ∈ pn1.children
            exact hs3
      · intro p
        simp
      · simp

theorem nextPrefix_empty (part : String) : nextPrefix "" part = part := by
  simp [nextPrefix, empty_append_str]

theorem nextPrefix_ne {cur : String} (part : String) (hc : cur ≠ "") :
    nextPrefix cur part = cur ++ "/" ++ part := by
  simp [nextPrefix, hc]

theorem append_slash_ne (a b : String) : a ++ "/" ++ b ≠ "" := by
  intro h
  have hd := congrArg String.data h
  rw [sdata_append, sdata_append] at hd
  simp [show ("/" : String).data = ['/'] from rfl,
    show ("" : String).data = [] from rfl] at hd

theorem buildWalk_inv (fp : FeaturePath) :
    ∀ (parts : List String) (cur : String) (parentId : Option String) (st : BuildSt),
      BInv st →
      (∀ part ∈ parts, '/' ∉ part.data) →
      (cur = "" → parentId = none ∧ ∀ hd tl, parts = hd :: tl → hd ≠ "") →
      (cur ≠ "" → ∃ pid, parentId = some pid ∧ (cur, pid) ∈ st.pathToNode) →
      BInv (buildWalk fp parts cur parentId st) ∧
      ∀ p, p ∈ (buildWalk fp parts cur parentId st).pathToNode.map (fun e => e.1) ↔
        p ∈ st.pathToNode.map (fun e => e.1) ∨ p ∈ chainAux cur parts := by
  intro parts
  induction parts with
  | nil =>
    intro cur parentId st hinv _ _ _
    refine ⟨hinv, fun p => ?_⟩
    simp [buildWalk, chainAux]
  | cons part rest ih =>
    intro cur parentId st hinv hsl hcur0 hcur1
    have hslhd : '/' ∉ part.data := hsl part (by simp)
    have hsltl : ∀ q ∈ rest, '/' ∉ q.data := fun q hq => hsl q (by simp [hq])
    have hkey : (∀ pid, parentId = some pid →
          ∃ curPrev, (curPrev, pid) ∈ st.pathToNode ∧
            parentOfPrefix (nextPrefix cur part) = some curPrev) ∧
        (parentId = none → parentOfPrefix (nextPrefix cur part) = none) ∧
        nextPrefix cur part ≠ "" := by
      by_cases hc : cur = ""
      · obtain ⟨hpn, hhd⟩ := hcur0 hc
        have hnp : nextPrefix cur part = part := by rw [hc]; exact nextPrefix_empty part
        refine ⟨?_, ?_, ?_⟩
        · intro pid hpid
          rw [hpn] at hpid
          cases hpid
        · intro _
          rw [hnp]
          exact parentOf_slash_free hslhd
        · rw [hnp]
          exact hhd part rest rfl
      · obtain ⟨pid, hpid, hmem⟩ := hcur1 hc
        have hnp : nextPrefix cur part = cur ++ "/" ++ part := nextPrefix_ne part hc
        refine ⟨?_, ?_, ?_⟩
        · intro pid2 hpid2
          rw [hpid] at hpid2
          refine ⟨cur, ?_, ?_⟩
          · rw [← Option.some.inj hpid2]
            exact hmem
          · rw [hnp]
            exact parentOf_canonical cur part hslhd
        · intro h
          rw [h] at hpid
          cases hpid
        · rw [hnp]
          exact append_slash_ne cur part
    obtain ⟨hpar, hnone, hcne⟩ := hkey
    obtain ⟨hinv1, hiff1, hmem1⟩ :=
      addPrefixStep_inv fp part (nextPrefix cur part) parentId st hinv hpar hnone
    have hwalk : buildWalk fp (part :: rest) cur parentId st =
        buildWalk fp rest (nextPrefix cur part)
          (some (addPrefixStep fp part (nextPrefix cur part) parentId st).2)
          (addPrefixStep fp part (nextPrefix cur part) parentId st).1 := rfl
    obtain ⟨hinv2, hiff2⟩ := ih (nextPrefix cur part)
      (some (addPrefixStep fp part (nextPrefix cur part) parentId st).2)
      (addPrefixStep fp part (nextPrefix cur part) parentId st).1
      hinv1 hsltl (fun h => absurd h hcne)
      (fun _ => ⟨(addPrefixStep fp part (nextPrefix cur part) parentId st).2, rfl, hmem1⟩)
    refine ⟨by rw [hwalk]; exact hinv2, fun p => ?_⟩
    rw [hwalk, hiff2 p, hiff1 p]
    have hch : chainAux cur (part :: rest) =
        nextPrefix cur part :: chainAux (nextPrefix cur part) rest := rfl
    rw [hch]
    simp only [List.mem_cons]
    constructor
    · rintro ((h | h) | h)
      · exact Or.inl h
      · exact Or.inr (Or.inl h)
      · exact Or.inr (Or.inr h)
    · rintro (h | h | h)
      · exact Or.inl (Or.inl h)
      · exact Or.inl (Or.inr h)
      · exact Or.inr h

theorem pathParts_slash_free (path : String) : ∀ part ∈ pathParts path, '/' ∉ part.data := by
  intro part hp
  obtain ⟨seg, hseg, he⟩ := List.mem_map.mp hp
  rw [← he]
  exact splitOnChar_not_mem '/' path.data seg hseg

theorem buildFold_inv :
    ∀ (fps : List FeaturePath) (st : BuildSt), BInv st →
      (∀ fp ∈ fps, (pathParts fp.path).head? ≠ some "") →
      BInv (fps.foldl buildOnePath st) ∧
      ∀ p, p ∈ (fps.foldl buildOnePath st).pathToNode.map (fun e => e.1) ↔
        p ∈ st.pathToNode.map (fun e => e.1) ∨ p ∈ allPrefixes fps := by
  intro fps
  induction fps with
  | nil =>
    intro st hinv _
    refine ⟨hinv, fun p => ?_⟩
    simp [allPrefixes]
  | cons fp fps ih =>
    intro st hinv hhead
    have hone : buildOnePath st fp = buildWalk fp (pathParts fp.path) "" none st := rfl
    obtain ⟨hinv1, hiff1⟩ := buildWalk_inv fp (pathParts fp.path) "" none st hinv
      (pathParts_slash_free fp.path)
      (fun _ => ⟨rfl, fun hd tl heq hhd => by
        have := hhead fp (by simp)
        rw [heq, hhd] at this
        simp at this⟩)
      (fun h => absurd rfl h)
    have hfold : (fp :: fps).foldl buildOnePath st = fps.foldl buildOnePath (buildOnePath st fp) := rfl
    obtain ⟨hinv2, hiff2⟩ := ih (buildOnePath st fp) (hone ▸ hinv1)
      (fun q hq => hhead q (by simp [hq]))
    refine ⟨by rw [hfold]; exact hinv2, fun p => ?_⟩
    rw [hfold, hiff2 p]
    rw [show (buildOnePath st fp).pathToNode = (buildWalk fp (pathParts fp.path) "" none st).pathToNode from rfl]
    rw [hiff1 p]
    have hall : allPrefixes (fp :: fps) = chainPrefixes fp.path ++ allPrefixes fps := by
      simp [allPrefixes]
    rw [hall]
    have hcp : chainPrefixes fp.path = chainAux "" (pathParts fp.path) := rfl
    rw [List.mem_append, hcp]
    constructor
    · rintro ((h | h) | h)
      · exact Or.inl h
      · exact Or.inr (Or.inl h)
      · exact Or.inr (Or.inr h)
    · rintro (h | h | h)
      · exact Or.inl (Or.inl h)
      · exact Or.inl (Or.inr h)
      · exact Or.inr h

theorem chainAux_pairs :
    ∀ (parts : List String) (cur : String),
      (∀ part ∈ parts, '/' ∉ part.data) → cur ≠ "" →
      ∀ a b, (a, b) ∈ consecPairs (cur :: chainAux cur parts) →
        parentOfPrefix b = some a := by
  intro parts
  induction parts with
  | nil =>
    intro cur _ _ a b hab
    simp [consecPairs, chainAux] at hab
  | cons part rest ih =>
    intro cur hsl hc a b hab
    have hch : chainAux cur (part :: rest) =
        (cur ++ "/" ++ part) :: chainAux (cur ++ "/" ++ part) rest := by
      show nextPrefix cur part :: chainAux (nextPrefix cur part) rest = _
      rw [nextPrefix_ne part hc]
    rw [hch] at hab
    have hzip : consecPairs (cur :: (cur ++ "/" ++ part) :: chainAux (cur ++ "/" ++ part) rest) =
        (cur, cur ++ "/" ++ part) ::
          consecPairs ((cur ++ "/" ++ part) :: chainAux (cur ++ "/" ++ part) rest) := rfl
    rw [hzip] at hab
    rcases List.mem_cons.mp hab with h | h
    · have h1 : a = cur := (Prod.mk.injEq _ _ _ _ ▸ h).1
      have h2 : b = cur ++ "/" ++ part := (Prod.mk.injEq _ _ _ _ ▸ h).2
      rw [h1, h2]
      exact parentOf_canonical cur part (hsl part (by simp))
    · exact ih (cur ++ "/" ++ part) (fun q hq => hsl q (by simp [hq]))
        (append_slash_ne cur part) a b h

theorem nodup_countP_beq : ∀ (l : List String), l.Nodup → ∀ p : String,
    l.countP (fun k => k == p) = if p ∈ l then 1 else 0 := by
  intro l
  induction l with
  | nil => intro _ p; simp
  | cons k l ih =>
    intro hn p
    obtain ⟨hk, hl⟩ := List.nodup_cons.mp hn
    rw [List.countP_cons, ih hl p]
    by_cases he : k = p
    · have hpl : p ∉ l := he ▸ hk
      simp [he, hpl]
    · have hne : ¬ p = k := fun h => he h.symm
      by_cases hp : p ∈ l
      · simp [he, hne, hp]
      · simp [he, hne, hp]

theorem binv_init : BInv { nodes := [], edges := [], pathToNode := [] } :=
  ⟨rfl, rfl, rfl, List.nodup_nil, fun n hn => absurd hn (List.not_mem_nil n),
   fun pr hpr _ _ => absurd hpr (List.not_mem_nil pr)⟩

theorem mem_addCapabilityDeps_left (nodes : List RPGNode) (edges : List RPGEdge) :
    ∀ e ∈ edges, e ∈ addCapabilityDeps nodes edges := by
  intro e he
  unfold addCapabilityDeps
  exact List.mem_append_left _ he

/-- C9, counterexample. The claim promises a noted containment edge from
every parent prefix to its child prefix.  For the path `"/x"` (empty
first segment) after `"x"` was already materialized, the chain has the
consecutive pair `("", "x")`, but the builder reuses the existing `"x"`
node while walking `"/x"` and adds no edge at all: the built graph's
edge list is empty, so no `depends_on` edge noted "hierarchical
containment" links the parent prefix `""` to the child prefix `"x"`. -/
theorem c9_counterexample_leading_slash :
    ("", "x") ∈ consecPairs (chainPrefixes "/x") ∧
    (∃ fp ∈ exFpsLeadingSlash, fp.path = "/x") ∧
    (buildCapabilityGraph exFpsLeadingSlash).edges = [] := by
  refine ⟨by decide, ⟨{ path := "/x", score := 1, source := "exploit" },
    List.mem_cons_of_mem _ (List.mem_singleton.mpr rfl), rfl⟩, by decide⟩

/-- C9 (amended). For every feature-path list whose paths have a
nonempty first segment, the built capability graph has exactly one
capability node per distinct materialized path prefix (a count of 1 for
every prefix of some chain, 0 otherwise, and no two nodes share
`meta.feature_path`), every node has kind `capability`, and every
consecutive (parent, child) prefix pair of every path's chain is linked
by a `depends_on` edge noted "hierarchical containment" whose child id
is recorded in the parent's `children` list. -/
theorem c9_capability_graph_invariants (fps : List FeaturePath)
    (hfirst : ∀ fp ∈ fps, (pathParts fp.path).head? ≠ some "") :
    (((buildCapabilityGraph fps).nodes.map (fun n => n.metaFeaturePath)).Nodup) ∧
    (∀ p : String,
      ((buildCapabilityGraph fps).nodes.filter (fun n => n.metaFeaturePath == some p)).length =
        if p ∈ allPrefixes fps then 1 else 0) ∧
    (∀ n ∈ (buildCapabilityGraph fps).nodes, n.kind = "capability") ∧
    (∀ fp ∈ fps, ∀ a b, (a, b) ∈ consecPairs (chainPrefixes fp.path) →
      ContainLink (buildCapabilityGraph fps).nodes (buildCapabilityGraph fps).edges a b) := by
  obtain ⟨hinv, hkeys⟩ :=
    buildFold_inv fps { nodes := [], edges := [], pathToNode := [] } binv_init hfirst
  have hkeys2 : ∀ p, p ∈ (fps.foldl buildOnePath
      { nodes := [], edges := [], pathToNode := [] }).pathToNode.map (fun e => e.1) ↔
      p ∈ allPrefixes fps := by
    intro p
    rw [hkeys p]
    simp
  have hgn : (buildCapabilityGraph fps).nodes =
      (fps.foldl buildOnePath { nodes := [], edges := [], pathToNode := [] }).nodes := rfl
  refine ⟨?_, ?_, ?_, ?_⟩
  · rw [hgn, ← hinv.2.2.1]
    have hm : (fps.foldl buildOnePath
        { nodes := [], edges := [], pathToNode := [] }).pathToNode.map (fun e => some e.1) =
        ((fps.foldl buildOnePath
          { nodes := [], edges := [], pathToNode := [] }).pathToNode.map (fun e => e.1)).map some := by
      rw [List.map_map]
      rfl
    rw [hm]
    exact List.Nodup.map (Option.some_injective String) hinv.2.2.2.1
  · intro p
    rw [hgn]
    calc ((fps.foldl buildOnePath { nodes := [], edges := [], pathToNode := [] }).nodes.filter
            (fun n => n.metaFeaturePath == some p)).length
        = (fps.foldl buildOnePath { nodes := [], edges := [], pathToNode := [] }).nodes.countP
            (fun n => n.metaFeaturePath == some p) := (List.countP_eq_length_filter _ _).symm
      _ = ((fps.foldl buildOnePath { nodes := [], edges := [], pathToNode := [] }).nodes.map
            (fun n => n.metaFeaturePath)).countP (fun o => o == some p) :=
          (List.countP_map (fun o => o == some p) (fun n : RPGNode => n.metaFeaturePath) _).symm
      _ = ((fps.foldl buildOnePath { nodes := [], edges := [], pathToNode := [] }).pathToNode.map
            (fun e => some e.1)).countP (fun o => o == some p) := by rw [hinv.2.2.1]
      _ = (((fps.foldl buildOnePath { nodes := [], edges := [], pathToNode := [] }).pathToNode.map
            (fun e => e.1)).map some).countP (fun o => o == some p) := by
          rw [List.map_map]
          rfl
      _ = ((fps.foldl buildOnePath { nodes := [], edges := [], pathToNode := [] }).pathToNode.map
            (fun e => e.1)).countP (fun k => k == p) :=
          List.countP_map (fun o => o == some p) some _
      _ = if p ∈ (fps.foldl buildOnePath
            { nodes := [], edges := [], pathToNode := [] }).pathToNode.map (fun e => e.1)
          then 1 else 0 := nodup_countP_beq _ hinv.2.2.2.1 p
      _ = if p ∈ allPrefixes fps then 1 else 0 := by
          by_cases hp : p ∈ allPrefixes fps
          · rw [if_pos hp, if_pos ((hkeys2 p).mpr hp)]
          · rw [if_neg hp, if_neg (fun hc => hp ((hkeys2 p).mp hc))]
  · intro n hn
    rw [hgn] at hn
    exact hinv.2.2.2.2.1 n hn
  · intro fp hfp a b hab
    obtain ⟨seg, segs, hsp⟩ := splitSlash_cons fp.path.data
    have hpp : pathParts fp.path = String.mk seg :: segs.map (fun cs => String.mk cs) := by
      unfold pathParts
      rw [hsp]
      rfl
    have hh := hfirst fp hfp
    rw [hpp] at hh
    have hp1ne : String.mk seg ≠ "" := fun he => hh (congrArg some he)
    have hchain : chainPrefixes fp.path =
        String.mk seg :: chainAux (String.mk seg) (segs.map (fun cs => String.mk cs)) := by
      show chainAux "" (pathParts fp.path) = _
      rw [hpp]
      show nextPrefix "" (String.mk seg) ::
        chainAux (nextPrefix "" (String.mk seg)) (segs.map (fun cs => String.mk cs)) = _
      rw [nextPrefix_empty]
    have hpar : parentOfPrefix b = some a := by
      refine chainAux_pairs (segs.map (fun cs => String.mk cs)) (String.mk seg) ?_ hp1ne a b ?_
      · intro q hq
        apply pathParts_slash_free fp.path q
        rw [hpp]
        exact List.mem_cons_of_mem _ hq
      · rw [← hchain]
        exact hab
    have hzip : (a, b) ∈ (chainPrefixes fp.path).zip (chainPrefixes fp.path).tail := hab
    have hbchain : b ∈ chainPrefixes fp.path := List.mem_of_mem_tail (List.of_mem_zip hzip).2
    have hball : b ∈ allPrefixes fps := List.mem_flatMap.mpr ⟨fp, hfp, hbchain⟩
    obtain ⟨e, he, heb⟩ := List.mem_map.mp ((hkeys2 b).mpr hball)
    have hcl := hinv.2.2.2.2.2 e he a (by rw [heb]; exact hpar)
    rw [heb] at hcl
    obtain ⟨pn, hpn, cn, hcn, e1, e2, e3, e4⟩ := hcl
    refine ⟨pn, ?_, cn, ?_, e1, e2, ?_, e4⟩
    · rw [hgn]
      exact hpn
    · rw [hgn]
      exact hcn
    · exact mem_addCapabilityDeps_left _ _ _ e3

/-- C9, witness: the amended invariants instantiated at a concrete
two-path feature list. -/
theorem c9_capability_graph_witness :
    (∀ fp ∈ exFpsCalc, (pathParts fp.path).head? ≠ some "") ∧
    ((((buildCapabilityGraph exFpsCalc).nodes.map (fun n => n.metaFeaturePath)).Nodup) ∧
     (∀ p : String,
       ((buildCapabilityGraph exFpsCalc).nodes.filter
         (fun n => n.metaFeaturePath == some p)).length =
         if p ∈ allPrefixes exFpsCalc then 1 else 0) ∧
     (∀ n ∈ (buildCapabilityGraph exFpsCalc).nodes, n.kind = "capability") ∧
     (∀ fp ∈ exFpsCalc, ∀ a b, (a, b) ∈ consecPairs (chainPrefixes fp.path) →
       ContainLink (buildCapabilityGraph exFpsCalc).nodes
         (buildCapabilityGraph exFpsCalc).edges a b)) :=
  ⟨by decide, c9_capability_graph_invariants exFpsCalc (by decide)⟩

end ZeroRepo
